import Mathlib

/-!
# Optimizer trace bookkeeping (`util/tracing/opt_trace.go`)

A shallow embedding of the trace data model of `opt_trace.go` and of the
operations on it, followed by theorems about them.

Modelling conventions.
* Go `int` / `int64` values are only copied and compared by the code, never
  used in arithmetic, so they are `Int`; `uint64` is `Nat`.
* A `float64` is only ever copied; it is represented by its IEEE-754 bit
  pattern (`Float64.bits`), so that "same cost" means bit-identical.
* `[]*PlanTrace` children are owned sub-trees: a plan tree is a finite value.
* Objects that the code reaches through aliased pointers (the rule tracers of
  `LogicalOptimizeTracer`) live in an explicit heap; an address that is not
  allocated plays the role of the nil pointer and dereferencing it fails.
  The `PhysicalPlanCostDetail` objects live in a heap of their own.
* A Go map is a finite list of bindings (`GoMap`); the maps of a tracer are
  allocated by its creator, as `NewPhysicalPlanCostDetail` allocates `params`.
* A method receiver is a possibly-nil pointer (`Option`) where the source
  tests it against nil (`buildCandidatesInfo`, and its caller
  `RecordFinalPlanTrace`); elsewhere the receiver is an object.
* `fmt.Sprintf("%v_%v", tp, id)` is `tp`, `_` and the decimal rendering of `id`.
-/

namespace Tracing

/-! ## Data model -/

/-- Bit pattern of a Go `float64`. -/
structure Float64 where
  bits : Nat
  deriving DecidableEq, Repr

/-- PlanTrace indicates for the Plan trace information. -/
structure PlanTrace where
  ID : Int
  TP : String
  Children : List PlanTrace
  ChildrenID : List Int
  Cost : Float64
  Selected : Bool
  ProperType : String
  ExplainInfo : String

/-- The accumulator threaded through `flattenLogicalPlanTrace`. -/
structure flattenWrapper where
  flatten : List PlanTrace

/-! ## Flattening (source lines 104-134) -/

mutual
/-- The wrapper after the call `flattenLogicalPlanTrace(node, wrapper)`. -/
def flattenLogicalPlanTrace (node : PlanTrace) (wrapper : flattenWrapper) : flattenWrapper :=
  match node with
  | ⟨id, tp, children, _, cost, _, _, info⟩ =>
    let newNode : PlanTrace :=
      { ID := id, TP := tp, Children := [], ChildrenID := [], Cost := cost,
        Selected := false, ProperType := "", ExplainInfo := info }
    if children.length < 1 then
      { flatten := wrapper.flatten ++ [newNode] }
    else
      let newNode : PlanTrace :=
        { newNode with
          ChildrenID := children.foldl (fun acc child => acc ++ [child.ID]) newNode.ChildrenID }
      let wrapper := flattenChildren children wrapper
      { flatten := wrapper.flatten ++ [newNode] }
/-- The loop `for _, child := range node.Children { flattenLogicalPlanTrace(child, wrapper) }`. -/
def flattenChildren (children : List PlanTrace) (wrapper : flattenWrapper) : flattenWrapper :=
  match children with
  | [] => wrapper
  | child :: rest => flattenChildren rest (flattenLogicalPlanTrace child wrapper)
end

/-- Go `toFlattenPlanTrace`: transform plan into PlanTrace. -/
def toFlattenPlanTrace (root : PlanTrace) : List PlanTrace :=
  let wrapper : flattenWrapper := { flatten := [] }
  (flattenLogicalPlanTrace root wrapper).flatten

/-! ## Specification-side notions for plan trees -/

mutual
/-- All nodes of a plan tree, the root first (pre-order). -/
def PlanTrace.nodes : PlanTrace → List PlanTrace
  | ⟨id, tp, children, cids, cost, sel, prop, info⟩ =>
    ⟨id, tp, children, cids, cost, sel, prop, info⟩ :: nodesOfList children
/-- All nodes of a forest. -/
def nodesOfList : List PlanTrace → List PlanTrace
  | [] => []
  | c :: rest => c.nodes ++ nodesOfList rest
end

mutual
/-- Number of nodes of a plan tree. -/
def PlanTrace.size : PlanTrace → Nat
  | ⟨_, _, children, _, _, _, _, _⟩ => 1 + sizeOfList children
/-- Number of nodes of a forest. -/
def sizeOfList : List PlanTrace → Nat
  | [] => 0
  | c :: rest => c.size + sizeOfList rest
end

/-- The nodes strictly below `n`: its children and all their descendants. -/
def PlanTrace.properDescendants (n : PlanTrace) : List PlanTrace :=
  nodesOfList n.Children

/-- The IDs of the nodes of a tree are pairwise distinct. -/
def PlanTrace.distinctIDs (root : PlanTrace) : Prop :=
  (root.nodes.map PlanTrace.ID).Nodup

instance (root : PlanTrace) : Decidable root.distinctIDs := by
  unfold PlanTrace.distinctIDs; infer_instance

/-- The sanitized copy of a node, in the words of the specification: the
node's ID, TP, Cost and ExplainInfo, the IDs of its direct children in
`ChildrenID`, and no owned children, selection flag or property. -/
def sanitizedCopy (n : PlanTrace) : PlanTrace :=
  { ID := n.ID, TP := n.TP, Children := [], ChildrenID := n.Children.map PlanTrace.ID,
    Cost := n.Cost, Selected := false, ProperType := "", ExplainInfo := n.ExplainInfo }

mutual
/-- Reference post-order traversal of the specification:
`post(n) = post(c1) ++ ... ++ post(ck) ++ [copy(n)]`. -/
def postOrder : PlanTrace → List PlanTrace
  | ⟨id, tp, children, cids, cost, sel, prop, info⟩ =>
    postOrderList children ++ [sanitizedCopy ⟨id, tp, children, cids, cost, sel, prop, info⟩]
/-- Concatenation of the post-order traversals of a forest. -/
def postOrderList : List PlanTrace → List PlanTrace
  | [] => []
  | c :: rest => postOrder c ++ postOrderList rest
end

/-- What a flattened sequence is meant to determine: the shape of a plan tree
with the ID, TP, Cost and ExplainInfo of every node. -/
inductive PlanShape where
  | node (ID : Int) (TP : String) (Cost : Float64) (ExplainInfo : String)
      (children : List PlanShape) : PlanShape

mutual
/-- Shape of a plan tree (forgets ChildrenID, Selected and ProperType). -/
def PlanTrace.shape : PlanTrace → PlanShape
  | ⟨id, tp, children, _, cost, _, _, info⟩ => .node id tp cost info (shapeOfList children)
/-- Shapes of a forest. -/
def shapeOfList : List PlanTrace → List PlanShape
  | [] => []
  | c :: rest => c.shape :: shapeOfList rest
end

/-- One step of rebuilding a tree from a flattened sequence: the entry takes
as many finished sub-trees off the stack as it lists children. -/
def rebuildStep (stack : List PlanShape) (e : PlanTrace) : List PlanShape :=
  .node e.ID e.TP e.Cost e.ExplainInfo (stack.take e.ChildrenID.length).reverse
    :: stack.drop e.ChildrenID.length

/-- Rebuild a forest (most recent tree first) from a flattened sequence. -/
def rebuild (flat : List PlanTrace) : List PlanShape :=
  flat.foldl rebuildStep []

/-- A leaf used in the worked examples; its Selected flag and ProperType are
set, to show that flattening does not copy them. -/
def exampleLeaf (id : Int) (tp : String) : PlanTrace :=
  { ID := id, TP := tp, Children := [], ChildrenID := [], Cost := ⟨7⟩,
    Selected := true, ProperType := "sorted", ExplainInfo := "leaf" }

/-- The inner node `1` of the worked example, with the single child `2`. -/
def exampleInner : PlanTrace :=
  { ID := 1, TP := "Selection", Children := [exampleLeaf 2 "TableScan"], ChildrenID := [],
    Cost := ⟨5⟩, Selected := false, ProperType := "", ExplainInfo := "inner" }

/-- The worked example: root `0` with children `1` (which has the child `2`)
and `3`. -/
def exampleTree : PlanTrace :=
  { ID := 0, TP := "Join", Children := [exampleInner, exampleLeaf 3 "IndexScan"],
    ChildrenID := [], Cost := ⟨9⟩, Selected := false, ProperType := "", ExplainInfo := "root" }

/-- The same tree as `exampleTree` with other values in the fields that
flattening ignores (ChildrenID, Selected, ProperType of the root). -/
def exampleTreeVariant : PlanTrace :=
  { ID := 0, TP := "Join", Children := [exampleInner, exampleLeaf 3 "IndexScan"],
    ChildrenID := [42], Cost := ⟨9⟩, Selected := true, ProperType := "hash", ExplainInfo := "root" }

/-! ## CE-record deduplication (source lines 136-156) -/

/-- CETraceRecord records an expression and related cardinality estimation
result. The Go field `Type` is named `RecType` here. Go compares two records
with `==` field by field, which is the derived equality. -/
structure CETraceRecord where
  TableID : Int
  TableName : String
  RecType : String
  Expr : String
  RowCount : Nat
  deriving DecidableEq, Repr

/-- The two locals of `DedupCETrace`: the slice `ret` and the key set of the
map `exists` (named `seen` here). -/
structure dedupState where
  ret : List CETraceRecord
  seen : List CETraceRecord

/-- Body of the loop of `DedupCETrace` for one record `r`. -/
def dedupStep (st : dedupState) (r : CETraceRecord) : dedupState :=
  if r ∈ st.seen then st
  else { ret := st.ret ++ [r], seen := r :: st.seen }

/-- State of the loop of `DedupCETrace` after the records `rs`, starting from
the empty `ret` and the empty map. -/
def dedupLoop (rs : List CETraceRecord) : dedupState :=
  rs.foldl dedupStep { ret := [], seen := [] }

/-- DedupCETrace deduplicate a slice of CETraceRecord and return the
deduplicated slice. -/
def DedupCETrace (records : List CETraceRecord) : List CETraceRecord :=
  (dedupLoop records).ret

/-- The first occurrences of a sequence, in the words of the specification:
the entries at the positions `i` whose record does not occur at an earlier
position, in their order. -/
def firstOccurrences (rs : List CETraceRecord) : List CETraceRecord :=
  (rs.enum.filter (fun ir => decide (ir.2 ∉ rs.take ir.1))).map Prod.snd

/-- Sample record `A`. -/
def recordA : CETraceRecord :=
  { TableID := 1, TableName := "t", RecType := "Column Stats-Point", Expr := "a = 1",
    RowCount := 10 }

/-- Sample record `B`: it differs from `A` in the TableID only. -/
def recordB : CETraceRecord :=
  { TableID := 2, TableName := "t", RecType := "Column Stats-Point", Expr := "a = 1",
    RowCount := 10 }

/-! ## Logical rule tracer (source lines 32-102) -/

/-- LogicalRuleOptimizeTraceStep indicates the trace for the detailed optimize
changing in logical rule optimize. -/
structure LogicalRuleOptimizeTraceStep where
  Action : String
  Reason : String
  ID : Int
  TP : String
  Index : Int
  deriving DecidableEq, Repr

/-- LogicalRuleOptimizeTracer indicates the trace for the LogicalPlan tree
before and after logical rule optimize. -/
structure LogicalRuleOptimizeTracer where
  Index : Int
  Before : List PlanTrace
  RuleName : String
  Steps : List LogicalRuleOptimizeTraceStep

/-- Address of a `LogicalRuleOptimizeTracer` object (a non-nil Go pointer). -/
abbrev RulePtr := Nat

/-- LogicalOptimizeTracer indicates the trace for the whole logicalOptimize
processing. `Steps` and `curRuleTracer` hold pointers, which may alias; the
objects they point to are the entries of `rules`, addressed by position.
`curRuleTracer = none` is the nil pointer. -/
structure LogicalOptimizeTracer where
  FinalLogicalPlan : List PlanTrace
  Steps : List RulePtr
  curRuleTracer : Option RulePtr
  rules : List LogicalRuleOptimizeTracer

/-- A freshly created tracer: `&LogicalOptimizeTracer{}`. -/
def LogicalOptimizeTracer.empty : LogicalOptimizeTracer :=
  { FinalLogicalPlan := [], Steps := [], curRuleTracer := none, rules := [] }

/-- The rule entries that `Steps` points to, in order (what is exported). -/
def LogicalOptimizeTracer.entries (tracer : LogicalOptimizeTracer) :
    List LogicalRuleOptimizeTracer :=
  tracer.Steps.filterMap (fun p => tracer.rules[p]?)

/-- Every pointer in `Steps` points to an allocated object (as every non-nil
pointer does in Go). -/
def LogicalOptimizeTracer.stepsAllocated (tracer : LogicalOptimizeTracer) : Prop :=
  ∀ p ∈ tracer.Steps, p < tracer.rules.length

instance (tracer : LogicalOptimizeTracer) : Decidable tracer.stepsAllocated := by
  unfold LogicalOptimizeTracer.stepsAllocated; infer_instance

/-- Go `buildLogicalRuleOptimizeTracerBeforeOptimize`: build rule tracer before
rule optimize. -/
def buildLogicalRuleOptimizeTracerBeforeOptimize (index : Int) (name : String)
    (before : PlanTrace) : LogicalRuleOptimizeTracer :=
  { Index := index, Before := toFlattenPlanTrace before, RuleName := name, Steps := [] }

/-- AppendRuleTracerBeforeRuleOptimize add plan tracer before optimize. The new
object is allocated at the next free address. -/
def LogicalOptimizeTracer.AppendRuleTracerBeforeRuleOptimize (tracer : LogicalOptimizeTracer)
    (index : Int) (name : String) (before : PlanTrace) : LogicalOptimizeTracer :=
  let ruleTracer : RulePtr := tracer.rules.length
  { tracer with
    rules := tracer.rules ++ [buildLogicalRuleOptimizeTracerBeforeOptimize index name before]
    Steps := tracer.Steps ++ [ruleTracer]
    curRuleTracer := some ruleTracer }

/-- AppendRuleTracerStepToCurrent add rule optimize step to current. The
result is `none` when `curRuleTracer` cannot be dereferenced (the Go code
panics on the nil pointer). -/
def LogicalOptimizeTracer.AppendRuleTracerStepToCurrent (tracer : LogicalOptimizeTracer)
    (id : Int) (tp reason action : String) : Option LogicalOptimizeTracer :=
  match tracer.curRuleTracer with
  | none => none
  | some p =>
    match tracer.rules[p]? with
    | none => none
    | some cur =>
      let index : Int := cur.Steps.length
      some { tracer with
        rules := tracer.rules.set p
          { cur with
            Steps := cur.Steps ++
              [{ ID := id, TP := tp, Reason := reason, Action := action, Index := index }] } }

/-- Body of the loop of `removeUselessStep` for one pointer `step`; `none`
when the pointer cannot be dereferenced. -/
def removeUselessStepLoop (rules : List LogicalRuleOptimizeTracer)
    (newSteps : List RulePtr) (step : RulePtr) : Option (List RulePtr) :=
  match rules[step]? with
  | none => none
  | some r => if r.Steps.length > 0 then some (newSteps ++ [step]) else some newSteps

/-- Go `removeUselessStep`: keep the pointers to the rules that recorded a step. -/
def LogicalOptimizeTracer.removeUselessStep (tracer : LogicalOptimizeTracer) :
    Option LogicalOptimizeTracer :=
  match tracer.Steps.foldlM (removeUselessStepLoop tracer.rules) [] with
  | none => none
  | some newSteps => some { tracer with Steps := newSteps }

/-- RecordFinalLogicalPlan add plan trace after logical optimize. -/
def LogicalOptimizeTracer.RecordFinalLogicalPlan (tracer : LogicalOptimizeTracer)
    (final : PlanTrace) : Option LogicalOptimizeTracer :=
  LogicalOptimizeTracer.removeUselessStep
    { tracer with FinalLogicalPlan := toFlattenPlanTrace final }

/-- Whether the rule at address `p` has recorded at least one step. -/
def hasSteps (rules : List LogicalRuleOptimizeTracer) (p : RulePtr) : Bool :=
  match rules[p]? with
  | none => false
  | some r => decide (0 < r.Steps.length)

/-- The tracer of the pruning example: rule applications `R1` (no step), `R2`
(two steps) and `R3` (no step), begun with the indices 0, 1 and 2. -/
def pruningExample : LogicalOptimizeTracer :=
  { FinalLogicalPlan := []
    Steps := [0, 1, 2]
    curRuleTracer := some 2
    rules :=
      [ { Index := 0, Before := toFlattenPlanTrace exampleTree, RuleName := "R1", Steps := [] },
        { Index := 1, Before := toFlattenPlanTrace exampleTree, RuleName := "R2",
          Steps := [ { Action := "a0", Reason := "r0", ID := 1, TP := "Selection", Index := 0 },
                     { Action := "a1", Reason := "r1", ID := 2, TP := "TableScan", Index := 1 } ] },
        { Index := 2, Before := toFlattenPlanTrace exampleTree, RuleName := "R3", Steps := [] } ] }

/-! ## Go maps and strings -/

/-- A Go map (allocated with `make`): a finite list of bindings. The first
binding of a key is the live one; `store` replaces it in place, so the keys
stay pairwise distinct. -/
structure GoMap (κ α : Type) where
  entries : List (κ × α)

/-- Search of a key in a list of bindings. -/
def lookupEntries {κ α : Type} [DecidableEq κ] : List (κ × α) → κ → Option α
  | [], _ => none
  | (k', v) :: rest, k => if k' = k then some v else lookupEntries rest k

/-- Replacement or addition of the binding of a key in a list of bindings. -/
def storeEntries {κ α : Type} [DecidableEq κ] : List (κ × α) → κ → α → List (κ × α)
  | [], k, v => [(k, v)]
  | (k', v') :: rest, k, v =>
    if k' = k then (k, v) :: rest else (k', v') :: storeEntries rest k v

/-- Go `make(map[K]V)`. -/
def GoMap.emptyMap {κ α : Type} : GoMap κ α := { entries := [] }

/-- Go `v, ok := m[k]`: `some v` when `ok`. -/
def GoMap.lookup {κ α : Type} [DecidableEq κ] (m : GoMap κ α) (k : κ) : Option α :=
  lookupEntries m.entries k

/-- Go `m[k] = v`. -/
def GoMap.store {κ α : Type} [DecidableEq κ] (m : GoMap κ α) (k : κ) (v : α) : GoMap κ α :=
  { entries := storeEntries m.entries k v }

/-- Go `len(m)`. -/
def GoMap.len {κ α : Type} (m : GoMap κ α) : Nat := m.entries.length

/-- A loop `for _, v := range m` whose body updates the object `v` points to:
every value is replaced by `f v`, the keys are untouched (the iteration order
does not matter as each value is updated on its own). -/
def GoMap.updateValues {κ α : Type} (m : GoMap κ α) (f : α → α) : GoMap κ α :=
  { entries := m.entries.map (fun e => (e.1, f e.2)) }

/-- Go `len(s)` of a string: its number of bytes. -/
def strLen (s : String) : Nat := s.utf8ByteSize

/-! ## Physical optimize tracer (source lines 158-203) -/

/-- CandidatePlanTrace indicates info for candidate. The embedded `*PlanTrace`
is the field `PlanTrace`. -/
structure CandidatePlanTrace where
  PlanTrace : PlanTrace
  MappingLogicalPlan : String

/-- Address of a `PhysicalPlanCostDetail` object. -/
abbrev CostDetailPtr := Nat

/-- PhysicalOptimizeTracer indicates the trace for the whole physicalOptimize
processing. The candidates are held by value: the only write through a
candidate pointer is `candidate.Selected = true`, which is decided by the ID
of the object written to, so aliased pointers receive the same update. -/
structure PhysicalOptimizeTracer where
  PhysicalPlanCostDetails : GoMap Int CostDetailPtr
  Final : List Tracing.PlanTrace
  Candidates : GoMap Int CandidatePlanTrace

/-- Outcome of a call on a receiver that may be the nil pointer: the call
completes and leaves the receiver in a state, or it panics on a nil
dereference. -/
inductive Outcome (σ : Type) where
  | completed (after : σ) : Outcome σ
  | nilDereference : Outcome σ

/-- AppendCandidate appends physical CandidatePlanTrace in tracer. If the
candidate already exists, the previous candidate would be covered depends on
whether it has mapping logical plan. -/
def PhysicalOptimizeTracer.AppendCandidate (tracer : PhysicalOptimizeTracer)
    (c : CandidatePlanTrace) : PhysicalOptimizeTracer :=
  match tracer.Candidates.lookup c.PlanTrace.ID with
  | some old =>
    if strLen old.MappingLogicalPlan > 0 ∧ strLen c.MappingLogicalPlan < 1 then tracer
    else { tracer with Candidates := tracer.Candidates.store c.PlanTrace.ID c }
  | none => { tracer with Candidates := tracer.Candidates.store c.PlanTrace.ID c }

/-- The statement `candidate.Selected = true`. -/
def CandidatePlanTrace.setSelected (candidate : CandidatePlanTrace) : CandidatePlanTrace :=
  { candidate with PlanTrace := { candidate.PlanTrace with Selected := true } }

/-- Body of the second loop of `buildCandidatesInfo` for one candidate; `fID`
is the key set of the map of the same name. -/
def markCandidate (fID : List Int) (candidate : CandidatePlanTrace) : CandidatePlanTrace :=
  if candidate.PlanTrace.ID ∈ fID then candidate.setSelected else candidate

/-- Go `buildCandidatesInfo`: builds candidates info. The receiver may be nil
(`none`); the result is the receiver after the call. -/
def PhysicalOptimizeTracer.buildCandidatesInfo (tracer : Option PhysicalOptimizeTracer) :
    Option PhysicalOptimizeTracer :=
  match tracer with
  | none => none
  | some t =>
    if t.Candidates.len < 1 then some t
    else
      let fID : List Int := t.Final.foldl (fun fID plan => plan.ID :: fID) []
      some { t with Candidates := t.Candidates.updateValues (markCandidate fID) }

/-- RecordFinalPlanTrace records final physical plan trace. The assignment
`tracer.Final = ...` dereferences the receiver before `buildCandidatesInfo`
is called. -/
def PhysicalOptimizeTracer.RecordFinalPlanTrace (tracer : Option PhysicalOptimizeTracer)
    (root : Tracing.PlanTrace) : Outcome (Option PhysicalOptimizeTracer) :=
  let final := toFlattenPlanTrace root
  match tracer with
  | none => .nilDereference
  | some t => .completed (PhysicalOptimizeTracer.buildCandidatesInfo (some { t with Final := final }))

/-- Two calls in a row: `RecordFinalPlanTrace(a)` then `RecordFinalPlanTrace(b)`
on the same receiver. -/
def recordFinalPlanTraceTwice (tracer : Option PhysicalOptimizeTracer)
    (a b : Tracing.PlanTrace) : Outcome (Option PhysicalOptimizeTracer) :=
  match PhysicalOptimizeTracer.RecordFinalPlanTrace tracer a with
  | .completed t => PhysicalOptimizeTracer.RecordFinalPlanTrace t b
  | .nilDereference => .nilDereference

/-- A tracer as its creator allocates it: empty maps, no final plan. -/
def PhysicalOptimizeTracer.empty : PhysicalOptimizeTracer :=
  { PhysicalPlanCostDetails := GoMap.emptyMap, Final := [], Candidates := GoMap.emptyMap }

/-- A sequence of `AppendCandidate` calls. -/
def appendCandidates (tracer : PhysicalOptimizeTracer) (cs : List CandidatePlanTrace) :
    PhysicalOptimizeTracer :=
  cs.foldl PhysicalOptimizeTracer.AppendCandidate tracer

/-- The stored candidate that the override policy of the specification
promises for `id` after the calls `cs`: the last call for `id` with a
non-empty mapping when there is one, otherwise the last call for `id`. -/
def expectedCandidate (cs : List CandidatePlanTrace) (id : Int) : Option CandidatePlanTrace :=
  match (cs.filter (fun c => decide (c.PlanTrace.ID = id ∧ c.MappingLogicalPlan ≠ ""))).getLast? with
  | some c => some c
  | none => (cs.filter (fun c => decide (c.PlanTrace.ID = id))).getLast?

/-- The entry that the override policy keeps at the key of the incoming
candidate `c` when `prev` is the entry stored there before. -/
def overridePolicy (prev : Option CandidatePlanTrace) (c : CandidatePlanTrace) :
    Option CandidatePlanTrace :=
  match prev with
  | some old => if old.MappingLogicalPlan ≠ "" ∧ c.MappingLogicalPlan = "" then some old else some c
  | none => some c

/-- A candidate for the plan `id` with the given mapping. -/
def exampleCandidate (id : Int) (mapping : String) : CandidatePlanTrace :=
  { PlanTrace :=
      { ID := id, TP := "IndexScan", Children := [], ChildrenID := [], Cost := ⟨3⟩,
        Selected := false, ProperType := "", ExplainInfo := "candidate" }
    MappingLogicalPlan := mapping }

/-- The tracer of the selection example: candidates with the ids 1, 2, 3. -/
def selectionExample : PhysicalOptimizeTracer :=
  appendCandidates PhysicalOptimizeTracer.empty
    [exampleCandidate 1 "L1", exampleCandidate 2 "", exampleCandidate 3 "L3"]

/-- A final plan with the ids 1 and 3. -/
def finalPlan13 : PlanTrace :=
  { ID := 1, TP := "Join", Children := [exampleLeaf 3 "IndexScan"], ChildrenID := [],
    Cost := ⟨9⟩, Selected := false, ProperType := "", ExplainInfo := "final" }

/-- Every stored candidate is unselected. -/
def PhysicalOptimizeTracer.unselected (tracer : PhysicalOptimizeTracer) : Prop :=
  ∀ k c, tracer.Candidates.lookup k = some c → c.PlanTrace.Selected = false

/-- The tracer of the double-finalize example: one candidate, with the id 1. -/
def singleCandidateExample : PhysicalOptimizeTracer :=
  appendCandidates PhysicalOptimizeTracer.empty [exampleCandidate 1 ""]

/-- The `Selected` flag of the candidate stored at key `k` after a call. -/
def selectedAfter (o : Outcome (Option PhysicalOptimizeTracer)) (k : Int) : Option Bool :=
  match o with
  | .completed (some t) => (t.Candidates.lookup k).map (fun c => c.PlanTrace.Selected)
  | _ => none

/-- The candidate `c` with its `Selected` flag set to `b` and every other
field as it is. -/
def CandidatePlanTrace.withSelected (c : CandidatePlanTrace) (b : Bool) : CandidatePlanTrace :=
  { c with PlanTrace := { c.PlanTrace with Selected := b } }

/-- The IDs of the nodes of a plan tree. -/
def PlanTrace.ids (root : PlanTrace) : List Int := root.nodes.map PlanTrace.ID

/-! ## Top-level optimize tracer (source lines 205-231) -/

/-- OptimizeTracer indicates tracer for optimizer. `Logical` and `Physical`
are pointers that the two finalize methods never follow; `none` is nil. -/
structure OptimizeTracer where
  Logical : Option LogicalOptimizeTracer
  Physical : Option PhysicalOptimizeTracer
  FinalPlan : List PlanTrace
  IsFastPlan : Bool

/-- A fresh tracer: the zero value `&OptimizeTracer{}`. -/
def OptimizeTracer.fresh : OptimizeTracer :=
  { Logical := none, Physical := none, FinalPlan := [], IsFastPlan := false }

/-- SetFastPlan sets fast plan. -/
def OptimizeTracer.SetFastPlan (tracer : OptimizeTracer) (final : PlanTrace) : OptimizeTracer :=
  let tracer := { tracer with FinalPlan := toFlattenPlanTrace final }
  { tracer with IsFastPlan := true }

/-- RecordFinalPlan records plan after post optimize. -/
def OptimizeTracer.RecordFinalPlan (tracer : OptimizeTracer) (final : PlanTrace) :
    OptimizeTracer :=
  { tracer with FinalPlan := toFlattenPlanTrace final }

/-- Decimal rendering of a natural number, most significant digit first, as
`strconv` produces it: no leading zero, `0` for zero. -/
def formatNat (n : Nat) : List Char := Nat.toDigits 10 n

/-- Go `%v` of an `int`: the decimal rendering, with a leading `-` for a
negative value. -/
def formatInt (i : Int) : String :=
  if i < 0 then String.mk ('-' :: formatNat i.natAbs) else String.mk (formatNat i.natAbs)

/-- The number that a list of decimal digits denotes (most significant digit
first); used to read a rendering back. -/
def digitsValue (ds : List Char) : Nat :=
  ds.foldl (fun acc c => 10 * acc + (c.toNat - 48)) 0

/-- CodecPlanName returns tp_id of plan: `fmt.Sprintf("%v_%v", tp, id)`. -/
def CodecPlanName (tp : String) (id : Int) : String :=
  tp ++ "_" ++ formatInt id

/-! ## Cost detail (source lines 233-275) -/

/-- PhysicalPlanCostDetail indicates cost detail. `V` stands for the values of
type `interface{}` held by `params`. -/
structure PhysicalPlanCostDetail (V : Type) where
  id : Int
  tp : String
  params : GoMap String V
  desc : String

/-- The memory holding the `PhysicalPlanCostDetail` objects; a
`CostDetailPtr` is a position in it. -/
abbrev CostDetailHeap (V : Type) := List (PhysicalPlanCostDetail V)

/-- NewPhysicalPlanCostDetail creates a cost detail: the new object is
allocated at the next free address, which is returned. -/
def NewPhysicalPlanCostDetail {V : Type} (heap : CostDetailHeap V) (id : Int) (tp : String) :
    CostDetailHeap V × CostDetailPtr :=
  (heap ++ [{ id := id, tp := tp, params := GoMap.emptyMap, desc := "" }], heap.length)

/-- AddParam adds param: the memory after the call and the returned pointer;
`none` when `d` cannot be dereferenced. -/
def PhysicalPlanCostDetail.AddParam {V : Type} (heap : CostDetailHeap V) (d : CostDetailPtr) (k : String) (v : V) :
    Option (CostDetailHeap V × CostDetailPtr) :=
  match heap[d]? with
  | none => none
  | some obj => some (heap.set d { obj with params := obj.params.store k v }, d)

/-- SetDesc sets desc. -/
def PhysicalPlanCostDetail.SetDesc {V : Type} (heap : CostDetailHeap V) (d : CostDetailPtr) (desc : String) :
    Option (CostDetailHeap V) :=
  match heap[d]? with
  | none => none
  | some obj => some (heap.set d { obj with desc := desc })

/-- GetPlanID gets plan id. -/
def PhysicalPlanCostDetail.GetPlanID {V : Type} (heap : CostDetailHeap V) (d : CostDetailPtr) : Option Int :=
  match heap[d]? with
  | none => none
  | some obj => some obj.id

/-- GetPlanType gets plan type. -/
def PhysicalPlanCostDetail.GetPlanType {V : Type} (heap : CostDetailHeap V) (d : CostDetailPtr) : Option String :=
  match heap[d]? with
  | none => none
  | some obj => some obj.tp

/-- Exists checks whether key exists in params. -/
def PhysicalPlanCostDetail.Exists {V : Type} (heap : CostDetailHeap V) (d : CostDetailPtr) (k : String) : Option Bool :=
  match heap[d]? with
  | none => none
  | some obj => some (obj.params.lookup k).isSome

/-- A chain of `AddParam` calls, each made on the pointer that the previous
call returned: `d.AddParam(k1, v1).AddParam(k2, v2)...`. -/
def addParams {V : Type} (heap : CostDetailHeap V) (d : CostDetailPtr) :
    List (String × V) → Option (CostDetailHeap V × CostDetailPtr)
  | [] => some (heap, d)
  | (k, v) :: rest =>
    match PhysicalPlanCostDetail.AddParam heap d k v with
    | none => none
    | some (heap', d') => addParams heap' d' rest

/-! ## Call sequences on the logical rule tracer -/

/-- One call on a `LogicalOptimizeTracer`. -/
inductive LogicalCall where
  | beginRule (index : Int) (name : String) (before : PlanTrace) : LogicalCall
  | recordStep (id : Int) (tp reason action : String) : LogicalCall
  | recordFinal (final : PlanTrace) : LogicalCall

/-- Effect of one call; `none` when the call panics. -/
def runCall (tracer : LogicalOptimizeTracer) : LogicalCall → Option LogicalOptimizeTracer
  | .beginRule index name before =>
    some (tracer.AppendRuleTracerBeforeRuleOptimize index name before)
  | .recordStep id tp reason action => tracer.AppendRuleTracerStepToCurrent id tp reason action
  | .recordFinal final => tracer.RecordFinalLogicalPlan final

/-- Effect of a sequence of calls, in order. -/
def runCalls (tracer : LogicalOptimizeTracer) : List LogicalCall → Option LogicalOptimizeTracer
  | [] => some tracer
  | call :: rest =>
    match runCall tracer call with
    | none => none
    | some tracer' => runCalls tracer' rest

/-- A begin-rule call precedes the first record-step call (if there is one). -/
def beginPrecedesFirstStep : List LogicalCall → Bool
  | [] => true
  | .beginRule _ _ _ :: _ => true
  | .recordStep _ _ _ _ :: _ => false
  | .recordFinal _ :: rest => beginPrecedesFirstStep rest

/-- The k-th step (0-based) of a step list has `Index = k`. -/
def stepsIndexed (steps : List LogicalRuleOptimizeTraceStep) : Prop :=
  ∀ (k : Nat) (s : LogicalRuleOptimizeTraceStep), steps[k]? = some s → s.Index = (k : Int)

/-- Invariant of the tracer states that the calls produce: the pointers in
`Steps` and `curRuleTracer` point to allocated rule objects, and every rule
object has its steps numbered from 0. -/
def LogicalOptimizeTracer.invariant (tracer : LogicalOptimizeTracer) : Prop :=
  tracer.stepsAllocated
    ∧ (∀ r, r ∈ tracer.rules → stepsIndexed r.Steps)
    ∧ (∀ p, tracer.curRuleTracer = some p → p < tracer.rules.length)

/-- A call sequence used as an example: two rules, of which the first records
two steps, a finalize call, and a step recorded after it. -/
def exampleCalls : List LogicalCall :=
  [ .recordFinal exampleTree,
    .beginRule 0 "R1" exampleTree,
    .recordStep 1 "Selection" "r0" "a0",
    .recordStep 2 "TableScan" "r1" "a1",
    .beginRule 1 "R2" exampleTree,
    .recordFinal exampleTree,
    .recordStep 3 "IndexScan" "r2" "a2" ]

/-! ## Lemmas on flattening -/

theorem foldl_childrenID (children : List PlanTrace) (init : List Int) :
    children.foldl (fun acc child => acc ++ [child.ID]) init
      = init ++ children.map PlanTrace.ID := by
  induction children generalizing init with
  | nil => simp
  | cons c rest ih => simp [ih]

mutual
theorem flatten_eq_postOrder (node : PlanTrace) (w : flattenWrapper) :
    (flattenLogicalPlanTrace node w).flatten = w.flatten ++ postOrder node := by
  match node with
  | ⟨id, tp, children, cids, cost, sel, prop, info⟩ =>
    cases children with
    | nil => simp [flattenLogicalPlanTrace, postOrder, postOrderList, sanitizedCopy]
    | cons c rest =>
      simp only [flattenLogicalPlanTrace, postOrder, sanitizedCopy]
      simp [flattenChildren_eq_postOrderList (c :: rest) w, foldl_childrenID]
theorem flattenChildren_eq_postOrderList (children : List PlanTrace) (w : flattenWrapper) :
    (flattenChildren children w).flatten = w.flatten ++ postOrderList children := by
  match children with
  | [] => simp [flattenChildren, postOrderList]
  | c :: rest =>
    simp only [flattenChildren, postOrderList]
    rw [flattenChildren_eq_postOrderList rest, flatten_eq_postOrder c]
    simp
end

theorem toFlattenPlanTrace_eq_postOrder (root : PlanTrace) :
    toFlattenPlanTrace root = postOrder root := by
  simp [toFlattenPlanTrace, flatten_eq_postOrder]

theorem postOrder_eq (n : PlanTrace) :
    postOrder n = postOrderList n.Children ++ [sanitizedCopy n] := by
  cases n; simp [postOrder]

theorem nodes_eq (n : PlanTrace) : n.nodes = n :: nodesOfList n.Children := by
  cases n; simp [PlanTrace.nodes]

mutual
theorem length_postOrder (n : PlanTrace) : (postOrder n).length = n.size := by
  match n with
  | ⟨id, tp, children, cids, cost, sel, prop, info⟩ =>
    simp only [postOrder, PlanTrace.size, List.length_append, List.length_singleton]
    rw [length_postOrderList children]; omega
theorem length_postOrderList (cs : List PlanTrace) :
    (postOrderList cs).length = sizeOfList cs := by
  match cs with
  | [] => simp [postOrderList, sizeOfList]
  | c :: rest =>
    simp only [postOrderList, sizeOfList, List.length_append]
    rw [length_postOrder c, length_postOrderList rest]
end

mutual
theorem ids_postOrder_perm (n : PlanTrace) :
    ((postOrder n).map PlanTrace.ID).Perm (n.nodes.map PlanTrace.ID) := by
  match n with
  | ⟨id, tp, children, cids, cost, sel, prop, info⟩ =>
    simp only [postOrder, PlanTrace.nodes, List.map_append, List.map_cons, List.map_nil,
      sanitizedCopy]
    exact (List.perm_append_singleton _ _).trans
      (List.Perm.cons _ (ids_postOrderList_perm children))
theorem ids_postOrderList_perm (cs : List PlanTrace) :
    ((postOrderList cs).map PlanTrace.ID).Perm ((nodesOfList cs).map PlanTrace.ID) := by
  match cs with
  | [] => simp [postOrderList, nodesOfList]
  | c :: rest =>
    simp only [postOrderList, nodesOfList, List.map_append]
    exact List.Perm.append (ids_postOrder_perm c) (ids_postOrderList_perm rest)
end

mutual
theorem mem_postOrder (n : PlanTrace) (e : PlanTrace) :
    e ∈ postOrder n ↔ ∃ m, m ∈ n.nodes ∧ e = sanitizedCopy m := by
  match n with
  | ⟨id, tp, children, cids, cost, sel, prop, info⟩ =>
    simp only [postOrder, PlanTrace.nodes, List.mem_append, List.mem_singleton, List.mem_cons,
      List.not_mem_nil, or_false]
    rw [mem_postOrderList children e]
    constructor
    · rintro (⟨m, hm, rfl⟩ | rfl)
      · exact ⟨m, Or.inr hm, rfl⟩
      · exact ⟨_, Or.inl rfl, rfl⟩
    · rintro ⟨m, (rfl | hm), rfl⟩
      · exact Or.inr rfl
      · exact Or.inl ⟨m, hm, rfl⟩
theorem mem_postOrderList (cs : List PlanTrace) (e : PlanTrace) :
    e ∈ postOrderList cs ↔ ∃ m, m ∈ nodesOfList cs ∧ e = sanitizedCopy m := by
  match cs with
  | [] => simp [postOrderList, nodesOfList]
  | c :: rest =>
    simp only [postOrderList, nodesOfList, List.mem_append]
    rw [mem_postOrder c e, mem_postOrderList rest e]
    constructor
    · rintro (⟨m, hm, rfl⟩ | ⟨m, hm, rfl⟩)
      · exact ⟨m, Or.inl hm, rfl⟩
      · exact ⟨m, Or.inr hm, rfl⟩
    · rintro ⟨m, (hm | hm), rfl⟩
      · exact Or.inl ⟨m, hm, rfl⟩
      · exact Or.inr ⟨m, hm, rfl⟩
end

mutual
theorem postOrder_block (n m : PlanTrace) (hm : m ∈ n.nodes) :
    postOrder m <:+: postOrder n := by
  match n with
  | ⟨id, tp, children, cids, cost, sel, prop, info⟩ =>
    simp only [PlanTrace.nodes, List.mem_cons] at hm
    rcases hm with rfl | hm
    · exact List.infix_refl _
    · simp only [postOrder]
      exact (postOrderList_block children m hm).trans (List.infix_append' [] _ _)
theorem postOrderList_block (cs : List PlanTrace) (m : PlanTrace) (hm : m ∈ nodesOfList cs) :
    postOrder m <:+: postOrderList cs := by
  match cs with
  | [] => simp [nodesOfList] at hm
  | c :: rest =>
    simp only [nodesOfList, List.mem_append] at hm
    simp only [postOrderList]
    rcases hm with hm | hm
    · exact (postOrder_block c m hm).trans (List.infix_append' [] _ _)
    · exact (postOrderList_block rest m hm).trans
        ((List.suffix_append _ _).isInfix)
end

theorem length_shapeOfList (cs : List PlanTrace) : (shapeOfList cs).length = cs.length := by
  induction cs with
  | nil => simp [shapeOfList]
  | cons c rest ih => simp [shapeOfList, ih]

mutual
theorem rebuild_postOrder (n : PlanTrace) (stack : List PlanShape) :
    (postOrder n).foldl rebuildStep stack = n.shape :: stack := by
  match n with
  | ⟨id, tp, children, cids, cost, sel, prop, info⟩ =>
    simp only [postOrder, List.foldl_append, List.foldl_cons, List.foldl_nil]
    rw [rebuild_postOrderList children stack]
    have hlen : (shapeOfList children).reverse.length = children.length := by
      simp [length_shapeOfList]
    simp [rebuildStep, sanitizedCopy, PlanTrace.shape, ← hlen, List.take_left, List.drop_left]
theorem rebuild_postOrderList (cs : List PlanTrace) (stack : List PlanShape) :
    (postOrderList cs).foldl rebuildStep stack = (shapeOfList cs).reverse ++ stack := by
  match cs with
  | [] => simp [postOrderList, shapeOfList]
  | c :: rest =>
    simp only [postOrderList, shapeOfList, List.foldl_append]
    rw [rebuild_postOrder c stack, rebuild_postOrderList rest]
    simp
end

theorem rebuild_toFlattenPlanTrace (root : PlanTrace) :
    rebuild (toFlattenPlanTrace root) = [root.shape] := by
  simp [rebuild, toFlattenPlanTrace_eq_postOrder, rebuild_postOrder]

theorem ids_toFlattenPlanTrace_nodup (root : PlanTrace) (h : root.distinctIDs) :
    ((toFlattenPlanTrace root).map PlanTrace.ID).Nodup := by
  rw [toFlattenPlanTrace_eq_postOrder]
  exact (ids_postOrder_perm root).nodup_iff.mpr h

theorem position_unique (l : List PlanTrace) (hnd : (l.map PlanTrace.ID).Nodup)
    (i k : Nat) (e f : PlanTrace) (hi : l[i]? = some e) (hk : l[k]? = some f)
    (hid : e.ID = f.ID) : i = k := by
  have hlt : i < (l.map PlanTrace.ID).length := by
    obtain ⟨hlt, -⟩ := List.getElem?_eq_some.mp hi
    simpa using hlt
  apply List.getElem?_inj hlt hnd
  simp [List.getElem?_map, hi, hk, hid]

/-! ## Flattening: the claims -/

/-- C1: for a plan tree with pairwise distinct IDs the flattened sequence has
as many entries as the tree has nodes, and an ID is emitted exactly when it is
the ID of a node of the tree (each ID being emitted once). -/
theorem C1_flatten_preserves_count_and_ids (root : PlanTrace) (h : root.distinctIDs) :
    (toFlattenPlanTrace root).length = root.size
      ∧ (∀ id, id ∈ (toFlattenPlanTrace root).map PlanTrace.ID
            ↔ id ∈ root.nodes.map PlanTrace.ID)
      ∧ ((toFlattenPlanTrace root).map PlanTrace.ID).Nodup := by
  refine ⟨?_, ?_, ids_toFlattenPlanTrace_nodup root h⟩
  · rw [toFlattenPlanTrace_eq_postOrder, length_postOrder]
  · intro id
    rw [toFlattenPlanTrace_eq_postOrder]
    exact (ids_postOrder_perm root).mem_iff

theorem C1_witness :
    exampleTree.distinctIDs
      ∧ ((toFlattenPlanTrace exampleTree).length = exampleTree.size
        ∧ (∀ id, id ∈ (toFlattenPlanTrace exampleTree).map PlanTrace.ID
              ↔ id ∈ exampleTree.nodes.map PlanTrace.ID)
        ∧ ((toFlattenPlanTrace exampleTree).map PlanTrace.ID).Nodup) :=
  ⟨by decide, C1_flatten_preserves_count_and_ids exampleTree (by decide)⟩

/-- C2: in the flattening of a tree with pairwise distinct IDs, for every node
N of the tree and every node D strictly below N (a child of N or a descendant
of a child), the copy of D stands at a strictly earlier position than the copy
of N; these are the only positions carrying the IDs of D and of N. -/
theorem C2_descendants_before_ancestor (root : PlanTrace) (h : root.distinctIDs)
    (N : PlanTrace) (hN : N ∈ root.nodes) (D : PlanTrace) (hD : D ∈ N.properDescendants) :
    ∃ i j, i < j
      ∧ (toFlattenPlanTrace root)[i]? = some (sanitizedCopy D)
      ∧ (toFlattenPlanTrace root)[j]? = some (sanitizedCopy N)
      ∧ (∀ (k : Nat) (e : PlanTrace), (toFlattenPlanTrace root)[k]? = some e → e.ID = D.ID → k = i)
      ∧ (∀ (k : Nat) (e : PlanTrace), (toFlattenPlanTrace root)[k]? = some e → e.ID = N.ID → k = j) := by
  have hnd := ids_toFlattenPlanTrace_nodup root h
  rw [toFlattenPlanTrace_eq_postOrder] at hnd ⊢
  obtain ⟨pre, suf, hsplit⟩ := postOrder_block root N hN
  rw [postOrder_eq N] at hsplit
  have hDmem : sanitizedCopy D ∈ postOrderList N.Children :=
    (mem_postOrderList _ _).mpr ⟨D, hD, rfl⟩
  obtain ⟨i0, hi0⟩ := List.mem_iff_getElem?.mp hDmem
  obtain ⟨hi0lt, -⟩ := List.getElem?_eq_some.mp hi0
  have hposD : (postOrder root)[pre.length + i0]? = some (sanitizedCopy D) := by
    rw [← hsplit, List.append_assoc, List.append_assoc,
      List.getElem?_append_right (Nat.le_add_right _ _)]
    rw [Nat.add_sub_cancel_left, List.getElem?_append_left hi0lt]
    exact hi0
  have hposN : (postOrder root)[pre.length + (postOrderList N.Children).length]?
      = some (sanitizedCopy N) := by
    rw [← hsplit, List.append_assoc, List.append_assoc,
      List.getElem?_append_right (Nat.le_add_right _ _)]
    rw [Nat.add_sub_cancel_left, List.getElem?_append_right (Nat.le_refl _)]
    simp
  refine ⟨pre.length + i0, pre.length + (postOrderList N.Children).length, by omega,
    hposD, hposN, ?_, ?_⟩
  · intro k e hk hid
    exact position_unique _ hnd k _ e _ hk hposD (by simpa [sanitizedCopy] using hid)
  · intro k e hk hid
    exact position_unique _ hnd k _ e _ hk hposN (by simpa [sanitizedCopy] using hid)

theorem C2_witness :
    exampleTree.distinctIDs ∧ exampleInner ∈ exampleTree.nodes
      ∧ exampleLeaf 2 "TableScan" ∈ exampleInner.properDescendants
      ∧ ∃ i j, i < j
        ∧ (toFlattenPlanTrace exampleTree)[i]? = some (sanitizedCopy (exampleLeaf 2 "TableScan"))
        ∧ (toFlattenPlanTrace exampleTree)[j]? = some (sanitizedCopy exampleInner)
        ∧ (∀ (k : Nat) (e : PlanTrace), (toFlattenPlanTrace exampleTree)[k]? = some e
              → e.ID = (exampleLeaf 2 "TableScan").ID → k = i)
        ∧ (∀ (k : Nat) (e : PlanTrace), (toFlattenPlanTrace exampleTree)[k]? = some e
              → e.ID = exampleInner.ID → k = j) :=
  have hN : exampleInner ∈ exampleTree.nodes := by
    simp [exampleTree, PlanTrace.nodes, nodesOfList, exampleInner]
  have hD : exampleLeaf 2 "TableScan" ∈ exampleInner.properDescendants := by
    simp [PlanTrace.properDescendants, exampleInner, exampleLeaf, PlanTrace.nodes, nodesOfList]
  ⟨by decide, hN, hD,
    C2_descendants_before_ancestor exampleTree (by decide) exampleInner hN _ hD⟩

/-- C3: the flattening of a tree rooted at R is non-empty and its last element
is the sanitized copy of R: R's ID, TP, Cost and ExplainInfo, with ChildrenID
the list of the IDs of R's direct children. -/
theorem C3_root_is_last (R : PlanTrace) :
    toFlattenPlanTrace R ≠ []
      ∧ ∃ last, (toFlattenPlanTrace R).getLast? = some last
          ∧ last = sanitizedCopy R
          ∧ last.ID = R.ID ∧ last.TP = R.TP ∧ last.Cost = R.Cost
          ∧ last.ExplainInfo = R.ExplainInfo
          ∧ last.ChildrenID = R.Children.map PlanTrace.ID := by
  rw [toFlattenPlanTrace_eq_postOrder, postOrder_eq]
  refine ⟨by simp, sanitizedCopy R, List.getLast?_concat _, rfl, rfl, rfl, rfl, rfl, rfl⟩

/-- C4: in the flattening of a tree with pairwise distinct IDs, every emitted
node carries the ID of a node of the tree, and its ChildrenID is, in order, the
list of the IDs of the direct children of the node of the tree with that ID
(the empty list when that node is a leaf). -/
theorem C4_childrenID_correct (root : PlanTrace) (h : root.distinctIDs)
    (e : PlanTrace) (he : e ∈ toFlattenPlanTrace root) :
    (∃ n, n ∈ root.nodes ∧ n.ID = e.ID)
      ∧ ∀ n, n ∈ root.nodes → n.ID = e.ID →
          e.ChildrenID = n.Children.map PlanTrace.ID
            ∧ (n.Children = [] → e.ChildrenID = []) := by
  rw [toFlattenPlanTrace_eq_postOrder, mem_postOrder] at he
  obtain ⟨m, hm, rfl⟩ := he
  refine ⟨⟨m, hm, rfl⟩, ?_⟩
  intro n hn hid
  have hnm : n = m := List.inj_on_of_nodup_map h hn hm hid
  subst hnm
  refine ⟨rfl, ?_⟩
  intro hleaf
  simp [sanitizedCopy, hleaf]

theorem C4_witness :
    exampleTree.distinctIDs
      ∧ sanitizedCopy exampleInner ∈ toFlattenPlanTrace exampleTree
      ∧ ((∃ n, n ∈ exampleTree.nodes ∧ n.ID = (sanitizedCopy exampleInner).ID)
        ∧ ∀ n, n ∈ exampleTree.nodes → n.ID = (sanitizedCopy exampleInner).ID →
            (sanitizedCopy exampleInner).ChildrenID = n.Children.map PlanTrace.ID
              ∧ (n.Children = [] → (sanitizedCopy exampleInner).ChildrenID = [])) :=
  have he : sanitizedCopy exampleInner ∈ toFlattenPlanTrace exampleTree := by
    simp [toFlattenPlanTrace, flattenLogicalPlanTrace, flattenChildren, exampleTree,
      exampleInner, exampleLeaf, sanitizedCopy]
  ⟨by decide, he, C4_childrenID_correct exampleTree (by decide) _ he⟩

/-- C5: the accumulator-passing `toFlattenPlanTrace` equals the reference
post-order traversal `postOrder`, and for every node n of the tree the copies
of the nodes of the subtree of n form one contiguous block of the result, of
as many entries as the subtree has nodes, ending with the copy of n. -/
theorem C5_flatten_refines_postOrder (root : PlanTrace) :
    toFlattenPlanTrace root = postOrder root
      ∧ ∀ n, n ∈ root.nodes →
          (∃ pre suf, toFlattenPlanTrace root = pre ++ postOrder n ++ suf)
            ∧ (∀ e, e ∈ postOrder n ↔ ∃ m, m ∈ n.nodes ∧ e = sanitizedCopy m)
            ∧ (postOrder n).length = n.size
            ∧ (postOrder n).getLast? = some (sanitizedCopy n) := by
  refine ⟨toFlattenPlanTrace_eq_postOrder root, ?_⟩
  intro n hn
  refine ⟨?_, mem_postOrder n, length_postOrder n, ?_⟩
  · obtain ⟨pre, suf, hsplit⟩ := postOrder_block root n hn
    exact ⟨pre, suf, by rw [toFlattenPlanTrace_eq_postOrder, hsplit]⟩
  · rw [postOrder_eq]; exact List.getLast?_concat _

theorem C5_witness :
    exampleInner ∈ exampleTree.nodes
      ∧ (∃ pre suf, toFlattenPlanTrace exampleTree = pre ++ postOrder exampleInner ++ suf)
      ∧ (∀ e, e ∈ postOrder exampleInner ↔ ∃ m, m ∈ exampleInner.nodes ∧ e = sanitizedCopy m)
      ∧ (postOrder exampleInner).length = exampleInner.size
      ∧ (postOrder exampleInner).getLast? = some (sanitizedCopy exampleInner) :=
  have hN : exampleInner ∈ exampleTree.nodes := by
    simp [exampleTree, PlanTrace.nodes, nodesOfList, exampleInner]
  ⟨hN, (C5_flatten_refines_postOrder exampleTree).2 exampleInner hN⟩

/-- C6: the flattened sequence determines the tree: two plan trees (in
particular two trees with pairwise distinct IDs) whose flattenings are equal
have the same shape, with the same ID, TP, Cost and ExplainInfo at every
corresponding node. The tree is recovered by `rebuild`, which reads only the
entries and the lengths of their ChildrenID, so distinctness is not needed. -/
theorem C6_flatten_determines_tree (a b : PlanTrace)
    (h : toFlattenPlanTrace a = toFlattenPlanTrace b) : a.shape = b.shape := by
  have h1 := rebuild_toFlattenPlanTrace a
  rw [h, rebuild_toFlattenPlanTrace b] at h1
  exact ((List.cons.inj h1).1).symm

theorem C6_witness :
    exampleTree.distinctIDs ∧ exampleTreeVariant.distinctIDs
      ∧ toFlattenPlanTrace exampleTree = toFlattenPlanTrace exampleTreeVariant
      ∧ exampleTree.shape = exampleTreeVariant.shape :=
  ⟨by decide, by decide, rfl,
    C6_flatten_determines_tree exampleTree exampleTreeVariant rfl⟩

/-! ## Lemmas on deduplication -/

theorem dedupLoop_concat (rs : List CETraceRecord) (r : CETraceRecord) :
    dedupLoop (rs ++ [r]) = dedupStep (dedupLoop rs) r := by
  simp [dedupLoop, List.foldl_append]

theorem mem_seen_dedupLoop (rs : List CETraceRecord) (x : CETraceRecord) :
    x ∈ (dedupLoop rs).seen ↔ x ∈ rs := by
  induction rs using List.reverseRecOn with
  | nil => simp [dedupLoop]
  | append_singleton rs r ih =>
    rw [dedupLoop_concat]
    unfold dedupStep
    by_cases hr : r ∈ (dedupLoop rs).seen
    · rw [if_pos hr, ih, List.mem_append, List.mem_singleton]
      constructor
      · exact Or.inl
      · rintro (h | rfl)
        · exact h
        · exact ih.mp hr
    · rw [if_neg hr]
      simp [ih, or_comm]

theorem DedupCETrace_concat (rs : List CETraceRecord) (r : CETraceRecord) :
    DedupCETrace (rs ++ [r]) = if r ∈ rs then DedupCETrace rs else DedupCETrace rs ++ [r] := by
  have h : DedupCETrace (rs ++ [r]) = (dedupStep (dedupLoop rs) r).ret := by
    rw [← dedupLoop_concat]; rfl
  rw [h]
  unfold dedupStep
  by_cases hr : r ∈ rs
  · rw [if_pos ((mem_seen_dedupLoop rs r).mpr hr), if_pos hr]; rfl
  · have hs : r ∉ (dedupLoop rs).seen := fun hh => hr ((mem_seen_dedupLoop rs r).mp hh)
    rw [if_neg hs, if_neg hr]; rfl

theorem mem_DedupCETrace (rs : List CETraceRecord) (x : CETraceRecord) :
    x ∈ DedupCETrace rs ↔ x ∈ rs := by
  induction rs using List.reverseRecOn with
  | nil => simp [DedupCETrace, dedupLoop]
  | append_singleton rs r ih =>
    rw [DedupCETrace_concat]
    by_cases hr : r ∈ rs
    · simp only [hr, if_true, ih, List.mem_append, List.mem_singleton]
      constructor
      · exact Or.inl
      · rintro (h | rfl)
        · exact h
        · exact hr
    · simp [hr, ih]

theorem nodup_DedupCETrace (rs : List CETraceRecord) : (DedupCETrace rs).Nodup := by
  induction rs using List.reverseRecOn with
  | nil => simp [DedupCETrace, dedupLoop]
  | append_singleton rs r ih =>
    rw [DedupCETrace_concat]
    by_cases hr : r ∈ rs
    · simpa [hr] using ih
    · simp only [hr, if_false]
      refine List.Nodup.append ih (List.nodup_singleton r) ?_
      simp [List.disjoint_singleton, mem_DedupCETrace, hr]

theorem sublist_DedupCETrace (rs : List CETraceRecord) : (DedupCETrace rs).Sublist rs := by
  induction rs using List.reverseRecOn with
  | nil => simp [DedupCETrace, dedupLoop]
  | append_singleton rs r ih =>
    rw [DedupCETrace_concat]
    by_cases hr : r ∈ rs
    · simp only [hr, if_true]
      exact ih.trans (List.sublist_append_left rs [r])
    · simp only [hr, if_false]
      exact List.Sublist.append ih (List.Sublist.refl [r])

theorem firstOccurrences_concat (rs : List CETraceRecord) (r : CETraceRecord) :
    firstOccurrences (rs ++ [r])
      = if r ∈ rs then firstOccurrences rs else firstOccurrences rs ++ [r] := by
  unfold firstOccurrences
  rw [List.enum_append, List.filter_append, List.map_append]
  have hleft : (rs.enum.filter (fun ir => decide (ir.2 ∉ (rs ++ [r]).take ir.1)))
      = rs.enum.filter (fun ir => decide (ir.2 ∉ rs.take ir.1)) := by
    apply List.filter_congr
    intro ir hir
    have hlt : ir.1 < rs.length := by
      obtain ⟨i, x⟩ := ir
      exact (List.mk_mem_enum_iff_getElem?.mp hir |> List.getElem?_eq_some.mp).1
    rw [List.take_append_of_le_length (Nat.le_of_lt hlt)]
  rw [hleft]
  by_cases hr : r ∈ rs
  · simp [hr, List.enumFrom_singleton]
  · simp [hr, List.enumFrom_singleton]

theorem DedupCETrace_eq_firstOccurrences (rs : List CETraceRecord) :
    DedupCETrace rs = firstOccurrences rs := by
  induction rs using List.reverseRecOn with
  | nil => simp [DedupCETrace, dedupLoop, firstOccurrences]
  | append_singleton rs r ih => rw [DedupCETrace_concat, firstOccurrences_concat, ih]

theorem DedupCETrace_of_nodup (rs : List CETraceRecord) (h : rs.Nodup) :
    DedupCETrace rs = rs := by
  induction rs using List.reverseRecOn with
  | nil => simp [DedupCETrace, dedupLoop]
  | append_singleton rs r ih =>
    rw [DedupCETrace_concat]
    have hnd := List.nodup_append.mp h
    have hr : r ∉ rs := fun hh => hnd.2.2 hh (List.mem_singleton_self r)
    simp [hr, ih hnd.1]

/-! ## Deduplication: the claims -/

/-- C7: `DedupCETrace` returns the distinct records of its input (equality
over all five fields) in order of first occurrence: the result has no two
equal records, every input record is in the result, the result is a
subsequence of the input, and it consists of the first occurrence of each
record. -/
theorem C7_dedup_first_occurrences (rs : List CETraceRecord) :
    (DedupCETrace rs).Nodup
      ∧ (∀ r, r ∈ rs → r ∈ DedupCETrace rs)
      ∧ (DedupCETrace rs).Sublist rs
      ∧ DedupCETrace rs = firstOccurrences rs :=
  ⟨nodup_DedupCETrace rs, fun r hr => (mem_DedupCETrace rs r).mpr hr,
    sublist_DedupCETrace rs, DedupCETrace_eq_firstOccurrences rs⟩

theorem C7_witness :
    (recordA ≠ recordB ∧ DedupCETrace [recordA, recordB, recordA] = [recordA, recordB])
      ∧ ((DedupCETrace [recordA, recordB, recordA]).Nodup
        ∧ (∀ r, r ∈ [recordA, recordB, recordA] → r ∈ DedupCETrace [recordA, recordB, recordA])
        ∧ (DedupCETrace [recordA, recordB, recordA]).Sublist [recordA, recordB, recordA]
        ∧ DedupCETrace [recordA, recordB, recordA]
            = firstOccurrences [recordA, recordB, recordA]) :=
  ⟨⟨by decide, by decide⟩, C7_dedup_first_occurrences [recordA, recordB, recordA]⟩

/-- C8: `DedupCETrace` is idempotent, and a sequence with no two equal records
is returned unchanged (same elements, same order). -/
theorem C8_dedup_idempotent (rs : List CETraceRecord) :
    DedupCETrace (DedupCETrace rs) = DedupCETrace rs
      ∧ (rs.Nodup → DedupCETrace rs = rs) :=
  ⟨DedupCETrace_of_nodup _ (nodup_DedupCETrace rs), DedupCETrace_of_nodup rs⟩

theorem C8_witness :
    [recordA, recordB].Nodup ∧ DedupCETrace [recordA, recordB] = [recordA, recordB] :=
  ⟨by decide, (C8_dedup_idempotent [recordA, recordB]).2 (by decide)⟩

/-! ## Lemmas on the logical rule tracer -/

theorem removeUselessStep_loop (rules : List LogicalRuleOptimizeTracer) (steps : List RulePtr)
    (h : ∀ p ∈ steps, p < rules.length) (acc : List RulePtr) :
    steps.foldlM (removeUselessStepLoop rules) acc
      = some (acc ++ steps.filter (hasSteps rules)) := by
  induction steps generalizing acc with
  | nil => simp
  | cons p rest ih =>
    have hp : p < rules.length := h p (List.mem_cons_self p rest)
    have hrest : ∀ q ∈ rest, q < rules.length := fun q hq => h q (List.mem_cons_of_mem p hq)
    have hget : rules[p]? = some rules[p] := List.getElem?_eq_getElem hp
    rw [List.foldlM_cons]
    by_cases hs : 0 < (rules[p]).Steps.length
    · have h1 : removeUselessStepLoop rules acc p = some (acc ++ [p]) := by
        simp [removeUselessStepLoop, hget, hs]
      have h2 : hasSteps rules p = true := by simp [hasSteps, hget, hs]
      rw [h1, List.filter_cons_of_pos h2]
      simp [ih hrest]
    · have h1 : removeUselessStepLoop rules acc p = some acc := by
        simp [removeUselessStepLoop, hget, hs]
      have h2 : ¬ hasSteps rules p = true := by simp [hasSteps, hget, hs]
      rw [h1, List.filter_cons_of_neg h2]
      simp [ih hrest]

theorem entries_filter_hasSteps (rules : List LogicalRuleOptimizeTracer) (steps : List RulePtr) :
    (steps.filter (hasSteps rules)).filterMap (fun p => rules[p]?)
      = (steps.filterMap (fun p => rules[p]?)).filter (fun r => decide (0 < r.Steps.length)) := by
  induction steps with
  | nil => simp
  | cons p rest ih =>
    cases hget : rules[p]? with
    | none =>
      have h2 : ¬ hasSteps rules p = true := by simp [hasSteps, hget]
      rw [List.filter_cons_of_neg h2, List.filterMap_cons_none hget, ih]
    | some r =>
      rw [List.filterMap_cons_some hget]
      by_cases hs : 0 < r.Steps.length
      · have h2 : hasSteps rules p = true := by simp [hasSteps, hget, hs]
        rw [List.filter_cons_of_pos h2, List.filterMap_cons_some hget,
          List.filter_cons_of_pos (by simpa using hs), ih]
      · have h2 : ¬ hasSteps rules p = true := by simp [hasSteps, hget, hs]
        rw [List.filter_cons_of_neg h2, List.filter_cons_of_neg (by simpa using hs), ih]

/-- The state produced by the calls begin `R1`, begin `R2`, two steps, begin
`R3` on a fresh tracer is `pruningExample`. -/
theorem pruningExample_reached :
    ((((LogicalOptimizeTracer.empty.AppendRuleTracerBeforeRuleOptimize 0 "R1" exampleTree)
          |>.AppendRuleTracerBeforeRuleOptimize 1 "R2" exampleTree)
          |>.AppendRuleTracerStepToCurrent 1 "Selection" "r0" "a0").bind
        (fun t => t.AppendRuleTracerStepToCurrent 2 "TableScan" "r1" "a1")).map
        (fun t => t.AppendRuleTracerBeforeRuleOptimize 2 "R3" exampleTree)
      = some pruningExample := rfl

/-! ## Logical rule tracer: the claims -/

/-- C9: after `RecordFinalLogicalPlan(final)` on a tracer whose `Steps`
pointers are allocated, `FinalLogicalPlan` is the flattening of `final` and
`Steps` is the subsequence of the previous `Steps` made of the rule entries
whose step list is non-empty, in their original order; no rule object is
modified, so each kept entry has its Index, RuleName, Before and steps. -/
theorem C9_record_final_prunes_empty_rules (tracer : LogicalOptimizeTracer) (final : PlanTrace)
    (hwf : tracer.stepsAllocated) :
    ∃ t, tracer.RecordFinalLogicalPlan final = some t
      ∧ t.FinalLogicalPlan = toFlattenPlanTrace final
      ∧ t.Steps = tracer.Steps.filter (hasSteps tracer.rules)
      ∧ t.rules = tracer.rules
      ∧ t.curRuleTracer = tracer.curRuleTracer
      ∧ t.entries = tracer.entries.filter (fun r => decide (0 < r.Steps.length)) := by
  refine ⟨{ tracer with FinalLogicalPlan := toFlattenPlanTrace final,
                        Steps := tracer.Steps.filter (hasSteps tracer.rules) },
    ?_, rfl, rfl, rfl, rfl, ?_⟩
  · simp only [LogicalOptimizeTracer.RecordFinalLogicalPlan,
      LogicalOptimizeTracer.removeUselessStep]
    rw [removeUselessStep_loop tracer.rules tracer.Steps hwf []]
    simp
  · exact entries_filter_hasSteps tracer.rules tracer.Steps

theorem C9_witness :
    pruningExample.stepsAllocated
      ∧ (pruningExample.RecordFinalLogicalPlan exampleTree).map
          (fun t => t.entries.map (fun r => (r.Index, r.RuleName, r.Steps.length)))
          = some [(1, "R2", 2)]
      ∧ ∃ t, pruningExample.RecordFinalLogicalPlan exampleTree = some t
        ∧ t.FinalLogicalPlan = toFlattenPlanTrace exampleTree
        ∧ t.Steps = pruningExample.Steps.filter (hasSteps pruningExample.rules)
        ∧ t.rules = pruningExample.rules
        ∧ t.curRuleTracer = pruningExample.curRuleTracer
        ∧ t.entries = pruningExample.entries.filter (fun r => decide (0 < r.Steps.length)) :=
  ⟨by decide, rfl, C9_record_final_prunes_empty_rules pruningExample exampleTree (by decide)⟩

/-- C10: when `curRuleTracer` points to the rule object `cur` (the open rule),
`AppendRuleTracerStepToCurrent(id, tp, reason, action)` succeeds; afterwards
the open rule has its former steps followed by exactly one new step carrying
id, tp, reason and action with Index the former number of steps, its Index,
Before and RuleName are unchanged, every other rule object is unchanged, and
so are `Steps`, `curRuleTracer` and `FinalLogicalPlan`. -/
theorem C10_append_step_to_current (tracer : LogicalOptimizeTracer) (p : RulePtr)
    (cur : LogicalRuleOptimizeTracer) (hcur : tracer.curRuleTracer = some p)
    (hp : tracer.rules[p]? = some cur) (id : Int) (tp reason action : String) :
    ∃ t, tracer.AppendRuleTracerStepToCurrent id tp reason action = some t
      ∧ t.rules[p]? = some
          { Index := cur.Index, Before := cur.Before, RuleName := cur.RuleName,
            Steps := cur.Steps ++
              [{ ID := id, TP := tp, Reason := reason, Action := action,
                 Index := (cur.Steps.length : Int) }] }
      ∧ (∀ q, q ≠ p → t.rules[q]? = tracer.rules[q]?)
      ∧ t.rules.length = tracer.rules.length
      ∧ t.Steps = tracer.Steps
      ∧ t.curRuleTracer = tracer.curRuleTracer
      ∧ t.FinalLogicalPlan = tracer.FinalLogicalPlan := by
  obtain ⟨hlt, -⟩ := List.getElem?_eq_some.mp hp
  refine ⟨{ tracer with
      rules := tracer.rules.set p
        { cur with
          Steps := cur.Steps ++
            [{ ID := id, TP := tp, Reason := reason, Action := action,
               Index := (cur.Steps.length : Int) }] } },
    by simp only [LogicalOptimizeTracer.AppendRuleTracerStepToCurrent, hcur, hp],
    ?_, ?_, ?_, rfl, hcur ▸ rfl, rfl⟩
  · simp [List.getElem?_set_self hlt]
  · intro q hq
    simp [List.getElem?_set_ne (Ne.symm hq)]
  · simp

theorem C10_witness :
    (LogicalOptimizeTracer.empty.AppendRuleTracerBeforeRuleOptimize 0 "R1" exampleTree).curRuleTracer
        = some 0
      ∧ (LogicalOptimizeTracer.empty.AppendRuleTracerBeforeRuleOptimize 0 "R1" exampleTree).rules[0]?
        = some (buildLogicalRuleOptimizeTracerBeforeOptimize 0 "R1" exampleTree)
      ∧ ∃ t, (LogicalOptimizeTracer.empty.AppendRuleTracerBeforeRuleOptimize 0 "R1"
            exampleTree).AppendRuleTracerStepToCurrent 1 "Selection" "r0" "a0" = some t
        ∧ t.rules[0]? = some
            { Index := 0, Before := toFlattenPlanTrace exampleTree, RuleName := "R1",
              Steps := [{ ID := 1, TP := "Selection", Reason := "r0", Action := "a0",
                          Index := 0 }] }
        ∧ (∀ q, q ≠ 0 → t.rules[q]?
            = (LogicalOptimizeTracer.empty.AppendRuleTracerBeforeRuleOptimize 0 "R1"
                exampleTree).rules[q]?)
        ∧ t.rules.length
            = (LogicalOptimizeTracer.empty.AppendRuleTracerBeforeRuleOptimize 0 "R1"
                exampleTree).rules.length
        ∧ t.Steps
            = (LogicalOptimizeTracer.empty.AppendRuleTracerBeforeRuleOptimize 0 "R1"
                exampleTree).Steps
        ∧ t.curRuleTracer
            = (LogicalOptimizeTracer.empty.AppendRuleTracerBeforeRuleOptimize 0 "R1"
                exampleTree).curRuleTracer
        ∧ t.FinalLogicalPlan
            = (LogicalOptimizeTracer.empty.AppendRuleTracerBeforeRuleOptimize 0 "R1"
                exampleTree).FinalLogicalPlan :=
  ⟨rfl, rfl,
    C10_append_step_to_current
      (LogicalOptimizeTracer.empty.AppendRuleTracerBeforeRuleOptimize 0 "R1" exampleTree) 0
      (buildLogicalRuleOptimizeTracerBeforeOptimize 0 "R1" exampleTree) rfl rfl
      1 "Selection" "r0" "a0"⟩

/-! ## Lemmas on maps, strings and the physical tracer -/

theorem strLen_eq_zero (s : String) : strLen s = 0 ↔ s = "" := by
  constructor
  · intro h
    cases s with
    | mk cs =>
      cases cs with
      | nil => rfl
      | cons c rest =>
        simp [strLen, String.utf8ByteSize, String.utf8ByteSize.go] at h
        have := Char.utf8Size_pos c
        omega
  · rintro rfl; rfl

theorem lookupEntries_storeEntries {κ α : Type} [DecidableEq κ] (l : List (κ × α))
    (k : κ) (v : α) (k' : κ) :
    lookupEntries (storeEntries l k v) k' = if k = k' then some v else lookupEntries l k' := by
  induction l with
  | nil => simp [storeEntries, lookupEntries]
  | cons e rest ih =>
    obtain ⟨k0, v0⟩ := e
    by_cases h0 : k0 = k
    · subst h0
      by_cases h1 : k0 = k' <;> simp [storeEntries, lookupEntries, h1]
    · by_cases h1 : k0 = k'
      · subst h1
        have h2 : ¬ k = k0 := fun h => h0 h.symm
        simp [storeEntries, lookupEntries, h0, h2]
      · simp [storeEntries, lookupEntries, h0, h1, ih]

theorem lookup_store {κ α : Type} [DecidableEq κ] (m : GoMap κ α) (k : κ) (v : α) (k' : κ) :
    (m.store k v).lookup k' = if k = k' then some v else m.lookup k' :=
  lookupEntries_storeEntries m.entries k v k'

theorem lookup_updateValues {κ α : Type} [DecidableEq κ] (m : GoMap κ α) (f : α → α) (k : κ) :
    (m.updateValues f).lookup k = (m.lookup k).map f := by
  obtain ⟨l⟩ := m
  simp only [GoMap.updateValues, GoMap.lookup]
  induction l with
  | nil => simp [lookupEntries]
  | cons e rest ih =>
    obtain ⟨k0, v0⟩ := e
    by_cases h0 : k0 = k
    · simp [lookupEntries, h0]
    · simp [lookupEntries, h0, ih]

theorem mem_fID (final : List PlanTrace) (acc : List Int) (x : Int) :
    x ∈ final.foldl (fun fID plan => plan.ID :: fID) acc
      ↔ x ∈ acc ∨ x ∈ final.map PlanTrace.ID := by
  induction final generalizing acc with
  | nil => simp
  | cons e rest ih =>
    simp only [List.foldl_cons, ih, List.mem_cons, List.map_cons]
    tauto

theorem mem_ids_toFlattenPlanTrace (root : PlanTrace) (x : Int) :
    x ∈ (toFlattenPlanTrace root).map PlanTrace.ID ↔ x ∈ root.ids := by
  rw [toFlattenPlanTrace_eq_postOrder]
  exact (ids_postOrder_perm root).mem_iff

theorem markCandidate_congr (S S' : List Int) (h : ∀ x, x ∈ S ↔ x ∈ S')
    (c : CandidatePlanTrace) : markCandidate S c = markCandidate S' c := by
  unfold markCandidate
  by_cases hc : c.PlanTrace.ID ∈ S
  · rw [if_pos hc, if_pos ((h _).mp hc)]
  · rw [if_neg hc, if_neg (fun hh => hc ((h _).mpr hh))]

theorem markCandidate_eq_withSelected (S : List Int) (c : CandidatePlanTrace) :
    markCandidate S c
      = c.withSelected (c.PlanTrace.Selected || decide (c.PlanTrace.ID ∈ S)) := by
  obtain ⟨⟨id, tp, ch, cids, cost, sel, prop, info⟩, mapping⟩ := c
  unfold markCandidate
  by_cases hc : id ∈ S
  · simp [hc, CandidatePlanTrace.setSelected, CandidatePlanTrace.withSelected]
  · simp [hc, CandidatePlanTrace.withSelected]

theorem recordFinalPlanTrace_some (tracer : PhysicalOptimizeTracer) (root : PlanTrace) :
    ∃ t, PhysicalOptimizeTracer.RecordFinalPlanTrace (some tracer) root = .completed (some t)
      ∧ t.Final = toFlattenPlanTrace root
      ∧ t.PhysicalPlanCostDetails = tracer.PhysicalPlanCostDetails
      ∧ ∀ k, t.Candidates.lookup k
          = (tracer.Candidates.lookup k).map
              (fun c => c.withSelected (c.PlanTrace.Selected || decide (c.PlanTrace.ID ∈ root.ids))) := by
  have hmark : ∀ c : CandidatePlanTrace,
      markCandidate ((toFlattenPlanTrace root).foldl (fun fID plan => plan.ID :: fID) []) c
        = c.withSelected (c.PlanTrace.Selected || decide (c.PlanTrace.ID ∈ root.ids)) := by
    intro c
    rw [markCandidate_congr _ root.ids _ c, markCandidate_eq_withSelected]
    intro x
    rw [mem_fID, mem_ids_toFlattenPlanTrace]
    simp
  by_cases hlen : tracer.Candidates.len < 1
  · refine ⟨{ tracer with Final := toFlattenPlanTrace root }, ?_, rfl, rfl, ?_⟩
    · simp [PhysicalOptimizeTracer.RecordFinalPlanTrace,
        PhysicalOptimizeTracer.buildCandidatesInfo, hlen]
    · intro k
      have hnil : tracer.Candidates.entries = [] := by
        simp only [GoMap.len] at hlen
        exact List.length_eq_zero.mp (by omega)
      simp [GoMap.lookup, hnil, lookupEntries]
  · refine ⟨{ tracer with
        Final := toFlattenPlanTrace root
        Candidates := tracer.Candidates.updateValues
          (markCandidate ((toFlattenPlanTrace root).foldl (fun fID plan => plan.ID :: fID) [])) },
      ?_, rfl, rfl, ?_⟩
    · simp [PhysicalOptimizeTracer.RecordFinalPlanTrace,
        PhysicalOptimizeTracer.buildCandidatesInfo, hlen]
    · intro k
      rw [lookup_updateValues]
      cases tracer.Candidates.lookup k with
      | none => rfl
      | some c => simp [hmark c]

theorem strLen_pos_iff (s : String) : strLen s > 0 ↔ s ≠ "" := by
  rw [Ne, ← strLen_eq_zero]; omega

theorem strLen_lt_one_iff (s : String) : strLen s < 1 ↔ s = "" := by
  rw [← strLen_eq_zero]; omega

theorem overridePolicy_of_nonEmpty (prev : Option CandidatePlanTrace) (c : CandidatePlanTrace)
    (h : c.MappingLogicalPlan ≠ "") : overridePolicy prev c = some c := by
  cases prev with
  | none => rfl
  | some old => simp [overridePolicy, h]

theorem appendCandidate_lookup (tracer : PhysicalOptimizeTracer) (c : CandidatePlanTrace)
    (k : Int) :
    (tracer.AppendCandidate c).Candidates.lookup k
      = if c.PlanTrace.ID = k then overridePolicy (tracer.Candidates.lookup c.PlanTrace.ID) c
        else tracer.Candidates.lookup k := by
  unfold PhysicalOptimizeTracer.AppendCandidate overridePolicy
  cases hold : tracer.Candidates.lookup c.PlanTrace.ID with
  | none =>
    simp only [lookup_store]
  | some old =>
    by_cases hrej : old.MappingLogicalPlan ≠ "" ∧ c.MappingLogicalPlan = ""
    · have hrej' : strLen old.MappingLogicalPlan > 0 ∧ strLen c.MappingLogicalPlan < 1 :=
        ⟨(strLen_pos_iff _).mpr hrej.1, (strLen_lt_one_iff _).mpr hrej.2⟩
      simp only [if_pos hrej, if_pos hrej']
      by_cases hk : c.PlanTrace.ID = k
      · rw [if_pos hk, ← hk, hold]
      · rw [if_neg hk]
    · have hrej' : ¬ (strLen old.MappingLogicalPlan > 0 ∧ strLen c.MappingLogicalPlan < 1) :=
        fun h => hrej ⟨(strLen_pos_iff _).mp h.1, (strLen_lt_one_iff _).mp h.2⟩
      simp only [if_neg hrej, if_neg hrej', lookup_store]

theorem appendCandidate_frame (tracer : PhysicalOptimizeTracer) (c : CandidatePlanTrace) :
    (tracer.AppendCandidate c).Final = tracer.Final
      ∧ (tracer.AppendCandidate c).PhysicalPlanCostDetails = tracer.PhysicalPlanCostDetails := by
  unfold PhysicalOptimizeTracer.AppendCandidate
  cases tracer.Candidates.lookup c.PlanTrace.ID with
  | none => exact ⟨rfl, rfl⟩
  | some old =>
    dsimp only
    split <;> exact ⟨rfl, rfl⟩

theorem appendCandidates_concat (tracer : PhysicalOptimizeTracer) (cs : List CandidatePlanTrace)
    (c : CandidatePlanTrace) :
    appendCandidates tracer (cs ++ [c]) = (appendCandidates tracer cs).AppendCandidate c := by
  simp [appendCandidates, List.foldl_append]

theorem mapping_of_getLast_nonEmpty (cs : List CandidatePlanTrace) (id : Int)
    (x : CandidatePlanTrace)
    (h : (cs.filter (fun c => decide (c.PlanTrace.ID = id ∧ c.MappingLogicalPlan ≠ ""))).getLast?
          = some x) :
    x.PlanTrace.ID = id ∧ x.MappingLogicalPlan ≠ "" := by
  have hx := List.mem_of_getLast?_eq_some h
  simpa using (List.mem_filter.mp hx).2

theorem appendCandidates_lookup (cs : List CandidatePlanTrace) (id : Int) :
    (appendCandidates PhysicalOptimizeTracer.empty cs).Candidates.lookup id
      = expectedCandidate cs id := by
  induction cs using List.reverseRecOn with
  | nil => rfl
  | append_singleton cs c ih =>
    rw [appendCandidates_concat, appendCandidate_lookup]
    unfold expectedCandidate at ih ⊢
    simp only [List.filter_append, List.getLast?_append]
    by_cases hk : c.PlanTrace.ID = id
    · rw [if_pos hk, hk, ih]
      by_cases hm : c.MappingLogicalPlan = ""
      · have hne : [c].filter (fun c => decide (c.PlanTrace.ID = id ∧ c.MappingLogicalPlan ≠ ""))
            = [] := by simp [hm]
        have hall : [c].filter (fun c => decide (c.PlanTrace.ID = id)) = [c] := by simp [hk]
        rw [hne, hall]
        cases hlast : (cs.filter
            (fun c => decide (c.PlanTrace.ID = id ∧ c.MappingLogicalPlan ≠ ""))).getLast? with
        | some x =>
          have hx := mapping_of_getLast_nonEmpty cs id x hlast
          simp [overridePolicy, hx.2, hm]
        | none =>
          have hnil : cs.filter
              (fun c => decide (c.PlanTrace.ID = id ∧ c.MappingLogicalPlan ≠ "")) = [] :=
            List.getLast?_eq_none_iff.mp hlast
          cases hlast2 : (cs.filter (fun c => decide (c.PlanTrace.ID = id))).getLast? with
          | none => simp [overridePolicy]
          | some y =>
            have hy := List.mem_filter.mp (List.mem_of_getLast?_eq_some hlast2)
            have hyid : y.PlanTrace.ID = id := by simpa using hy.2
            have hym : y.MappingLogicalPlan = "" := by
              by_contra hcon
              have : y ∈ cs.filter
                  (fun c => decide (c.PlanTrace.ID = id ∧ c.MappingLogicalPlan ≠ "")) :=
                List.mem_filter.mpr ⟨hy.1, by simp [hyid, hcon]⟩
              rw [hnil] at this
              exact List.not_mem_nil _ this
            simp [overridePolicy, hym]
      · have hne : [c].filter (fun c => decide (c.PlanTrace.ID = id ∧ c.MappingLogicalPlan ≠ ""))
            = [c] := by simp [hm, hk]
        rw [hne, overridePolicy_of_nonEmpty _ c hm]
        simp
    · rw [if_neg hk, ih]
      have hne : [c].filter (fun c => decide (c.PlanTrace.ID = id ∧ c.MappingLogicalPlan ≠ ""))
          = [] := by simp [hk]
      have hall : [c].filter (fun c => decide (c.PlanTrace.ID = id)) = [] := by simp [hk]
      rw [hne, hall]
      simp

theorem withSelected_withSelected (c : CandidatePlanTrace) (x y : Bool) :
    (c.withSelected x).withSelected y = c.withSelected y := rfl

theorem selectionExample_unselected : selectionExample.unselected := by
  intro k c h
  have h1 : selectionExample.Candidates.lookup k = expectedCandidate
      [exampleCandidate 1 "L1", exampleCandidate 2 "", exampleCandidate 3 "L3"] k :=
    appendCandidates_lookup _ k
  rw [h1] at h
  simp only [expectedCandidate, List.filter_cons, List.filter_nil, exampleCandidate] at h
  by_cases h1 : (1 : Int) = k <;> by_cases h2 : (2 : Int) = k <;> by_cases h3 : (3 : Int) = k <;>
    simp [h1, h2, h3] at h <;> first | omega | (subst h; rfl)

theorem singleCandidateExample_unselected : singleCandidateExample.unselected := by
  intro k c h
  have h1 : singleCandidateExample.Candidates.lookup k = expectedCandidate
      [exampleCandidate 1 ""] k := appendCandidates_lookup _ k
  rw [h1] at h
  simp only [expectedCandidate, List.filter_cons, List.filter_nil, exampleCandidate] at h
  by_cases h1 : (1 : Int) = k <;> simp [h1] at h
  subst h; rfl

/-! ## Physical optimize tracer: the claims -/

/-- C11: after `AppendCandidate(c)` the entry stored at key `c.ID` is the
previous entry when one existed with a non-empty MappingLogicalPlan and the
MappingLogicalPlan of `c` is empty, and is `c` in every other case; the
entries at all other keys, `Final` and the cost details are unchanged. -/
theorem C11_append_candidate_override (tracer : PhysicalOptimizeTracer)
    (c : CandidatePlanTrace) :
    (∀ old, tracer.Candidates.lookup c.PlanTrace.ID = some old →
        old.MappingLogicalPlan ≠ "" → c.MappingLogicalPlan = "" →
        (tracer.AppendCandidate c).Candidates.lookup c.PlanTrace.ID = some old)
      ∧ ((¬ ∃ old, tracer.Candidates.lookup c.PlanTrace.ID = some old
              ∧ old.MappingLogicalPlan ≠ "" ∧ c.MappingLogicalPlan = "") →
          (tracer.AppendCandidate c).Candidates.lookup c.PlanTrace.ID = some c)
      ∧ (∀ k, k ≠ c.PlanTrace.ID →
          (tracer.AppendCandidate c).Candidates.lookup k = tracer.Candidates.lookup k)
      ∧ (tracer.AppendCandidate c).Final = tracer.Final
      ∧ (tracer.AppendCandidate c).PhysicalPlanCostDetails = tracer.PhysicalPlanCostDetails := by
  refine ⟨?_, ?_, ?_, appendCandidate_frame tracer c⟩
  · intro old hold h1 h2
    rw [appendCandidate_lookup, if_pos rfl, hold]
    simp [overridePolicy, h1, h2]
  · intro hno
    rw [appendCandidate_lookup, if_pos rfl]
    cases hold : tracer.Candidates.lookup c.PlanTrace.ID with
    | none => rfl
    | some old =>
      have : ¬ (old.MappingLogicalPlan ≠ "" ∧ c.MappingLogicalPlan = "") :=
        fun h => hno ⟨old, hold, h.1, h.2⟩
      simp only [overridePolicy, if_neg this]
  · intro k hk
    rw [appendCandidate_lookup, if_neg (fun h => hk h.symm)]

theorem C11_witness :
    (PhysicalOptimizeTracer.empty.AppendCandidate (exampleCandidate 5 "L1")).Candidates.lookup
        (exampleCandidate 5 "").PlanTrace.ID = some (exampleCandidate 5 "L1")
      ∧ (exampleCandidate 5 "L1").MappingLogicalPlan ≠ ""
      ∧ (exampleCandidate 5 "").MappingLogicalPlan = ""
      ∧ ((PhysicalOptimizeTracer.empty.AppendCandidate (exampleCandidate 5 "L1")).AppendCandidate
          (exampleCandidate 5 "")).Candidates.lookup (exampleCandidate 5 "").PlanTrace.ID
          = some (exampleCandidate 5 "L1") :=
  ⟨rfl, by decide, rfl,
    (C11_append_candidate_override
      (PhysicalOptimizeTracer.empty.AppendCandidate (exampleCandidate 5 "L1"))
      (exampleCandidate 5 "")).1 (exampleCandidate 5 "L1") rfl (by decide) rfl⟩

/-- C12: a recorded provenance link is never erased. After any sequence of
`AppendCandidate` calls on an empty candidate map, the candidate stored for
an id is the one of the last call for that id with a non-empty
MappingLogicalPlan when there is such a call (so the stored mapping is
non-empty), and otherwise the one of the last call for that id. The calls
(5, "L1") then (5, "") and the calls in the reverse order both leave the
mapping "L1". -/
theorem C12_provenance_never_erased (cs : List CandidatePlanTrace) (id : Int) :
    (appendCandidates PhysicalOptimizeTracer.empty cs).Candidates.lookup id
        = expectedCandidate cs id
      ∧ (∀ c, c ∈ cs → c.PlanTrace.ID = id → c.MappingLogicalPlan ≠ "" →
          ∃ stored, (appendCandidates PhysicalOptimizeTracer.empty cs).Candidates.lookup id
              = some stored
            ∧ stored.PlanTrace.ID = id ∧ stored.MappingLogicalPlan ≠ "")
      ∧ ((appendCandidates PhysicalOptimizeTracer.empty
            [exampleCandidate 5 "L1", exampleCandidate 5 ""]).Candidates.lookup 5).map
          CandidatePlanTrace.MappingLogicalPlan = some "L1"
      ∧ ((appendCandidates PhysicalOptimizeTracer.empty
            [exampleCandidate 5 "", exampleCandidate 5 "L1"]).Candidates.lookup 5).map
          CandidatePlanTrace.MappingLogicalPlan = some "L1" := by
  refine ⟨appendCandidates_lookup cs id, ?_, by decide, by decide⟩
  intro c hc hid hm
  rw [appendCandidates_lookup]
  unfold expectedCandidate
  have hmem : c ∈ cs.filter
      (fun c => decide (c.PlanTrace.ID = id ∧ c.MappingLogicalPlan ≠ "")) :=
    List.mem_filter.mpr ⟨hc, by simp [hid, hm]⟩
  cases hlast : (cs.filter
      (fun c => decide (c.PlanTrace.ID = id ∧ c.MappingLogicalPlan ≠ ""))).getLast? with
  | none =>
    rw [List.getLast?_eq_none_iff.mp hlast] at hmem
    exact absurd hmem (List.not_mem_nil _)
  | some x =>
    have hx := mapping_of_getLast_nonEmpty cs id x hlast
    exact ⟨x, rfl, hx.1, hx.2⟩

theorem C12_witness :
    exampleCandidate 5 "L1" ∈ [exampleCandidate 5 "L1", exampleCandidate 5 ""]
      ∧ ∃ stored, (appendCandidates PhysicalOptimizeTracer.empty
            [exampleCandidate 5 "L1", exampleCandidate 5 ""]).Candidates.lookup 5 = some stored
          ∧ stored.PlanTrace.ID = 5 ∧ stored.MappingLogicalPlan ≠ "" :=
  ⟨List.mem_cons_self _ _,
    (C12_provenance_never_erased [exampleCandidate 5 "L1", exampleCandidate 5 ""] 5).2.1
      (exampleCandidate 5 "L1") (List.mem_cons_self _ _) rfl (by decide)⟩

/-- C13: on a tracer whose candidates are all unselected,
`RecordFinalPlanTrace(root)` completes; afterwards `Final` is the flattening
of `root`, every key holds the candidate it held before with `Selected` set
to whether the candidate's ID is the ID of a node of `root`, and no other
field of any candidate (nor the cost details) changes. -/
theorem C13_selection_marking (tracer : PhysicalOptimizeTracer) (root : PlanTrace)
    (hsel : tracer.unselected) :
    ∃ t, PhysicalOptimizeTracer.RecordFinalPlanTrace (some tracer) root = .completed (some t)
      ∧ t.Final = toFlattenPlanTrace root
      ∧ t.PhysicalPlanCostDetails = tracer.PhysicalPlanCostDetails
      ∧ (∀ k, t.Candidates.lookup k
          = (tracer.Candidates.lookup k).map
              (fun c => c.withSelected (decide (c.PlanTrace.ID ∈ root.ids))))
      ∧ (∀ k c, t.Candidates.lookup k = some c →
          (c.PlanTrace.Selected = true ↔ c.PlanTrace.ID ∈ root.ids)) := by
  obtain ⟨t, hrun, hfinal, hcost, hlook⟩ := recordFinalPlanTrace_some tracer root
  have hlook' : ∀ k, t.Candidates.lookup k
      = (tracer.Candidates.lookup k).map
          (fun c => c.withSelected (decide (c.PlanTrace.ID ∈ root.ids))) := by
    intro k
    rw [hlook k]
    cases hk : tracer.Candidates.lookup k with
    | none => rfl
    | some c => simp [hsel k c hk]
  refine ⟨t, hrun, hfinal, hcost, hlook', ?_⟩
  intro k c hc
  rw [hlook' k] at hc
  cases hk : tracer.Candidates.lookup k with
  | none => simp [hk] at hc
  | some c0 =>
    simp only [hk, Option.map_some', Option.some.injEq] at hc
    subst hc
    simp [CandidatePlanTrace.withSelected]

theorem C13_witness :
    selectionExample.unselected
      ∧ (selectedAfter (PhysicalOptimizeTracer.RecordFinalPlanTrace (some selectionExample)
            finalPlan13) 1 = some true
        ∧ selectedAfter (PhysicalOptimizeTracer.RecordFinalPlanTrace (some selectionExample)
            finalPlan13) 2 = some false
        ∧ selectedAfter (PhysicalOptimizeTracer.RecordFinalPlanTrace (some selectionExample)
            finalPlan13) 3 = some true)
      ∧ ∃ t, PhysicalOptimizeTracer.RecordFinalPlanTrace (some selectionExample) finalPlan13
            = .completed (some t)
        ∧ t.Final = toFlattenPlanTrace finalPlan13
        ∧ t.PhysicalPlanCostDetails = selectionExample.PhysicalPlanCostDetails
        ∧ (∀ k, t.Candidates.lookup k
            = (selectionExample.Candidates.lookup k).map
                (fun c => c.withSelected (decide (c.PlanTrace.ID ∈ finalPlan13.ids))))
        ∧ (∀ k c, t.Candidates.lookup k = some c →
            (c.PlanTrace.Selected = true ↔ c.PlanTrace.ID ∈ finalPlan13.ids)) :=
  ⟨selectionExample_unselected, ⟨by decide, by decide, by decide⟩,
    C13_selection_marking selectionExample finalPlan13 selectionExample_unselected⟩

/-- C14: on the nil tracer `RecordFinalPlanTrace` does not complete: for every
plan tree the call panics on the nil dereference of `tracer.Final = ...`,
although `buildCandidatesInfo` alone, which tests `tracer == nil`, completes
on the nil tracer without effect. -/
theorem C14_nil_tracer_panics (root : PlanTrace) :
    PhysicalOptimizeTracer.RecordFinalPlanTrace none root = .nilDereference
      ∧ PhysicalOptimizeTracer.buildCandidatesInfo none = none :=
  ⟨rfl, rfl⟩

/-- Counterexample to C15 as stated: with the single candidate 1, finalizing
with a plan that contains 1 and then with a plan that does not leaves the
candidate selected, while finalizing with the second plan alone does not. -/
theorem C15_counterexample :
    singleCandidateExample.unselected
      ∧ selectedAfter (recordFinalPlanTraceTwice (some singleCandidateExample)
          (exampleLeaf 1 "IndexScan") (exampleLeaf 2 "TableScan")) 1 = some true
      ∧ selectedAfter (PhysicalOptimizeTracer.RecordFinalPlanTrace (some singleCandidateExample)
          (exampleLeaf 2 "TableScan")) 1 = some false
      ∧ recordFinalPlanTraceTwice (some singleCandidateExample)
          (exampleLeaf 1 "IndexScan") (exampleLeaf 2 "TableScan")
        ≠ PhysicalOptimizeTracer.RecordFinalPlanTrace (some singleCandidateExample)
          (exampleLeaf 2 "TableScan") := by
  refine ⟨singleCandidateExample_unselected, by decide, by decide, ?_⟩
  intro h
  have h2 := congrArg (fun o => selectedAfter o 1) h
  revert h2
  decide

/-- C15 (amended): calling `RecordFinalPlanTrace` twice overwrites `Final` but
keeps the flags already set. On a tracer with unselected candidates, after
`RecordFinalPlanTrace(a)` followed by `RecordFinalPlanTrace(b)` the field
`Final` is the flattening of `b`, as after `RecordFinalPlanTrace(b)` alone, and
a candidate has `Selected = true` exactly when its ID is the ID of a node of
`a` or of `b` (after `b` alone: of a node of `b`); no other field changes. -/
theorem C15_second_finalize_overwrites_final_only (tracer : PhysicalOptimizeTracer)
    (a b : PlanTrace) (hsel : tracer.unselected) :
    ∃ t2 t1, recordFinalPlanTraceTwice (some tracer) a b = .completed (some t2)
      ∧ PhysicalOptimizeTracer.RecordFinalPlanTrace (some tracer) b = .completed (some t1)
      ∧ t2.Final = toFlattenPlanTrace b ∧ t1.Final = toFlattenPlanTrace b
      ∧ t2.PhysicalPlanCostDetails = tracer.PhysicalPlanCostDetails
      ∧ t1.PhysicalPlanCostDetails = tracer.PhysicalPlanCostDetails
      ∧ (∀ k, t2.Candidates.lookup k
          = (tracer.Candidates.lookup k).map
              (fun c => c.withSelected
                (decide (c.PlanTrace.ID ∈ a.ids ∨ c.PlanTrace.ID ∈ b.ids))))
      ∧ (∀ k, t1.Candidates.lookup k
          = (tracer.Candidates.lookup k).map
              (fun c => c.withSelected (decide (c.PlanTrace.ID ∈ b.ids)))) := by
  obtain ⟨ta, hrunA, -, hcostA, hlookA⟩ := recordFinalPlanTrace_some tracer a
  obtain ⟨t2, hrun2, hfinal2, hcost2, hlook2⟩ := recordFinalPlanTrace_some ta b
  obtain ⟨t1, hrun1, hfinal1, hcost1, hlook1⟩ := recordFinalPlanTrace_some tracer b
  refine ⟨t2, t1, ?_, hrun1, hfinal2, hfinal1, hcost2.trans hcostA, hcost1, ?_, ?_⟩
  · simp only [recordFinalPlanTraceTwice, hrunA, hrun2]
  · intro k
    rw [hlook2 k, hlookA k]
    cases hk : tracer.Candidates.lookup k with
    | none => rfl
    | some c =>
      simp [hsel k c hk, CandidatePlanTrace.withSelected]
  · intro k
    rw [hlook1 k]
    cases hk : tracer.Candidates.lookup k with
    | none => rfl
    | some c => simp [hsel k c hk]

theorem C15_witness :
    singleCandidateExample.unselected
      ∧ ∃ t2 t1, recordFinalPlanTraceTwice (some singleCandidateExample)
            (exampleLeaf 1 "IndexScan") (exampleLeaf 2 "TableScan") = .completed (some t2)
        ∧ PhysicalOptimizeTracer.RecordFinalPlanTrace (some singleCandidateExample)
            (exampleLeaf 2 "TableScan") = .completed (some t1)
        ∧ t2.Final = toFlattenPlanTrace (exampleLeaf 2 "TableScan")
        ∧ t1.Final = toFlattenPlanTrace (exampleLeaf 2 "TableScan")
        ∧ t2.PhysicalPlanCostDetails = singleCandidateExample.PhysicalPlanCostDetails
        ∧ t1.PhysicalPlanCostDetails = singleCandidateExample.PhysicalPlanCostDetails
        ∧ (∀ k, t2.Candidates.lookup k
            = (singleCandidateExample.Candidates.lookup k).map
                (fun c => c.withSelected
                  (decide (c.PlanTrace.ID ∈ (exampleLeaf 1 "IndexScan").ids
                    ∨ c.PlanTrace.ID ∈ (exampleLeaf 2 "TableScan").ids))))
        ∧ (∀ k, t1.Candidates.lookup k
            = (singleCandidateExample.Candidates.lookup k).map
                (fun c => c.withSelected
                  (decide (c.PlanTrace.ID ∈ (exampleLeaf 2 "TableScan").ids)))) :=
  ⟨singleCandidateExample_unselected,
    C15_second_finalize_overwrites_final_only singleCandidateExample
      (exampleLeaf 1 "IndexScan") (exampleLeaf 2 "TableScan") singleCandidateExample_unselected⟩

/-! ## Top-level tracer and cost detail: the claims -/

/-- C16: after `SetFastPlan(p)`, `IsFastPlan` is true and `FinalPlan` is the
flattening of `p`; after `RecordFinalPlan(p)`, `FinalPlan` is the flattening of
`p` and `IsFastPlan` keeps its value (false on a fresh tracer); both leave
`Logical` and `Physical` unchanged. -/
theorem C16_fast_plan_flag (tracer : OptimizeTracer) (p : PlanTrace) :
    ((tracer.SetFastPlan p).IsFastPlan = true
        ∧ (tracer.SetFastPlan p).FinalPlan = toFlattenPlanTrace p
        ∧ (tracer.SetFastPlan p).Logical = tracer.Logical
        ∧ (tracer.SetFastPlan p).Physical = tracer.Physical)
      ∧ ((tracer.RecordFinalPlan p).FinalPlan = toFlattenPlanTrace p
        ∧ (tracer.RecordFinalPlan p).IsFastPlan = tracer.IsFastPlan
        ∧ (tracer.RecordFinalPlan p).Logical = tracer.Logical
        ∧ (tracer.RecordFinalPlan p).Physical = tracer.Physical)
      ∧ (OptimizeTracer.fresh.RecordFinalPlan p).IsFastPlan = false :=
  ⟨⟨rfl, rfl, rfl, rfl⟩, ⟨rfl, rfl, rfl, rfl⟩, rfl⟩

theorem addParams_spec {V : Type} (kvs : List (String × V)) (heap : CostDetailHeap V)
    (d : CostDetailPtr) (obj : PhysicalPlanCostDetail V) (hd : heap[d]? = some obj) :
    ∃ heap' obj', addParams heap d kvs = some (heap', d)
      ∧ heap'[d]? = some obj'
      ∧ obj'.id = obj.id ∧ obj'.tp = obj.tp ∧ obj'.desc = obj.desc
      ∧ (∀ k, (obj'.params.lookup k).isSome
            = ((obj.params.lookup k).isSome || decide (k ∈ kvs.map Prod.fst)))
      ∧ heap'.length = heap.length
      ∧ ∀ q, q ≠ d → heap'[q]? = heap[q]? := by
  induction kvs generalizing heap obj with
  | nil => exact ⟨heap, obj, rfl, hd, rfl, rfl, rfl, by simp, rfl, fun _ _ => rfl⟩
  | cons kv rest ih =>
    obtain ⟨k0, v0⟩ := kv
    obtain ⟨hlt, -⟩ := List.getElem?_eq_some.mp hd
    have hd1 : (heap.set d { obj with params := obj.params.store k0 v0 })[d]?
        = some { obj with params := obj.params.store k0 v0 } := by
      simp [List.getElem?_set_self hlt]
    obtain ⟨heap', obj', hrun, hget, hid, htp, hdesc, hkeys, hlen, hother⟩ := ih _ _ hd1
    refine ⟨heap', obj', ?_, hget, hid, htp, hdesc, ?_, ?_, ?_⟩
    · simp only [addParams, PhysicalPlanCostDetail.AddParam, hd]
      exact hrun
    · intro k
      rw [hkeys k, lookup_store]
      by_cases hk : k0 = k
      · simp [hk]
      · have hk' : (k == k0) = false := by
          simp only [beq_eq_false_iff_ne, ne_eq]
          exact fun h => hk h.symm
        simp [hk, hk']
    · rw [hlen]; simp
    · intro q hq
      rw [hother q hq, List.getElem?_set_ne (Ne.symm hq)]

/-- C17: after `NewPhysicalPlanCostDetail(id, type)` and any chain of
`AddParam(k_i, v_i)` calls, each made on the pointer returned by the previous
one, every call has returned the pointer of the detail it was called on,
`Exists(k)` is true exactly for the inserted keys, `GetPlanID` and
`GetPlanType` return `id` and `type`, and no other object is modified. -/
theorem C17_cost_detail_fluency (V : Type) (heap : CostDetailHeap V) (id : Int) (tp : String)
    (kvs : List (String × V)) :
    ∃ heap', addParams (NewPhysicalPlanCostDetail heap id tp).1
          (NewPhysicalPlanCostDetail heap id tp).2 kvs
        = some (heap', (NewPhysicalPlanCostDetail heap id tp).2)
      ∧ (∀ k, PhysicalPlanCostDetail.Exists heap' (NewPhysicalPlanCostDetail heap id tp).2 k
            = some (decide (k ∈ kvs.map Prod.fst)))
      ∧ PhysicalPlanCostDetail.GetPlanID heap' (NewPhysicalPlanCostDetail heap id tp).2 = some id
      ∧ PhysicalPlanCostDetail.GetPlanType heap' (NewPhysicalPlanCostDetail heap id tp).2
          = some tp
      ∧ (∀ q, q < heap.length → heap'[q]? = heap[q]?)
      ∧ (∀ (h : CostDetailHeap V) (d : CostDetailPtr) (k : String) (v : V)
            (r : CostDetailHeap V × CostDetailPtr),
          PhysicalPlanCostDetail.AddParam h d k v = some r → r.2 = d) := by
  have hnew : (NewPhysicalPlanCostDetail heap id tp).1[(NewPhysicalPlanCostDetail heap id tp).2]?
      = some { id := id, tp := tp, params := GoMap.emptyMap, desc := "" } := by
    simp [NewPhysicalPlanCostDetail]
  obtain ⟨heap', obj', hrun, hget, hid, htp, -, hkeys, -, hother⟩ :=
    addParams_spec kvs _ _ _ hnew
  refine ⟨heap', hrun, ?_, ?_, ?_, ?_, ?_⟩
  · intro k
    simp only [PhysicalPlanCostDetail.Exists, hget, hkeys k]
    simp [GoMap.emptyMap, GoMap.lookup, lookupEntries]
  · simp only [PhysicalPlanCostDetail.GetPlanID, hget, hid]
  · simp only [PhysicalPlanCostDetail.GetPlanType, hget, htp]
  · intro q hq
    have hne : q ≠ (NewPhysicalPlanCostDetail heap id tp).2 := by
      simp only [NewPhysicalPlanCostDetail]; omega
    rw [hother q hne]
    simp only [NewPhysicalPlanCostDetail]
    exact List.getElem?_append_left hq
  · intro h d k v r hr
    simp only [PhysicalPlanCostDetail.AddParam] at hr
    cases hget' : h[d]? with
    | none => simp [hget'] at hr
    | some obj =>
      simp only [hget', Option.some.injEq] at hr
      rw [← hr]

theorem C17_witness :
    (addParams (NewPhysicalPlanCostDetail ([] : CostDetailHeap Nat) 7 "Sort").1
        (NewPhysicalPlanCostDetail ([] : CostDetailHeap Nat) 7 "Sort").2
        [("rows", 100), ("cpu", 3)]).map Prod.snd = some 0
      ∧ PhysicalPlanCostDetail.AddParam
          (NewPhysicalPlanCostDetail ([] : CostDetailHeap Nat) 7 "Sort").1 0 "rows" 100
        = some ([{ id := 7, tp := "Sort", params := { entries := [("rows", 100)] },
                   desc := "" }], 0)
      ∧ (([{ id := 7, tp := "Sort", params := { entries := [("rows", 100)] }, desc := "" }], 0) :
          CostDetailHeap Nat × CostDetailPtr).2 = 0 :=
  match C17_cost_detail_fluency Nat [] 7 "Sort" [("rows", 100), ("cpu", 3)] with
  | ⟨_, hrun, _, _, _, _, hret⟩ =>
    ⟨by rw [hrun]; rfl, rfl,
      hret (NewPhysicalPlanCostDetail ([] : CostDetailHeap Nat) 7 "Sort").1 0 "rows" 100 _ rfl⟩

/-- C19: every node emitted by `toFlattenPlanTrace` is the sanitized copy of a
node of the tree: no owned Children, an empty ProperType and Selected false,
whatever these were in the original, and the ID, TP, Cost and ExplainInfo of
the original; every node of the tree has its copy emitted. -/
theorem C19_emitted_nodes_are_sanitized (root : PlanTrace) :
    (∀ e, e ∈ toFlattenPlanTrace root →
        e.Children = [] ∧ e.ProperType = "" ∧ e.Selected = false
          ∧ ∃ n, n ∈ root.nodes ∧ e = sanitizedCopy n
              ∧ e.ID = n.ID ∧ e.TP = n.TP ∧ e.Cost = n.Cost ∧ e.ExplainInfo = n.ExplainInfo)
      ∧ (∀ n, n ∈ root.nodes → sanitizedCopy n ∈ toFlattenPlanTrace root) := by
  rw [toFlattenPlanTrace_eq_postOrder]
  constructor
  · intro e he
    obtain ⟨n, hn, rfl⟩ := (mem_postOrder root e).mp he
    exact ⟨rfl, rfl, rfl, n, hn, rfl, rfl, rfl, rfl, rfl⟩
  · intro n hn
    exact (mem_postOrder root _).mpr ⟨n, hn, rfl⟩

theorem C19_witness :
    exampleLeaf 3 "IndexScan" ∈ exampleTree.nodes
      ∧ (exampleLeaf 3 "IndexScan").Selected = true
      ∧ (exampleLeaf 3 "IndexScan").ProperType = "sorted"
      ∧ sanitizedCopy (exampleLeaf 3 "IndexScan") ∈ toFlattenPlanTrace exampleTree
      ∧ (sanitizedCopy (exampleLeaf 3 "IndexScan")).Children = []
      ∧ (sanitizedCopy (exampleLeaf 3 "IndexScan")).ProperType = ""
      ∧ (sanitizedCopy (exampleLeaf 3 "IndexScan")).Selected = false :=
  have hn : exampleLeaf 3 "IndexScan" ∈ exampleTree.nodes := by
    simp [exampleTree, PlanTrace.nodes, nodesOfList, exampleInner, exampleLeaf]
  have he := (C19_emitted_nodes_are_sanitized exampleTree).2 _ hn
  have hs := (C19_emitted_nodes_are_sanitized exampleTree).1 _ he
  ⟨hn, rfl, rfl, he, hs.1, hs.2.1, hs.2.2.1⟩

/-! ## Call sequences on the logical rule tracer: lemmas and claim -/

theorem stepsIndexed_concat (steps : List LogicalRuleOptimizeTraceStep)
    (h : stepsIndexed steps) (s : LogicalRuleOptimizeTraceStep)
    (hs : s.Index = (steps.length : Int)) : stepsIndexed (steps ++ [s]) := by
  intro k x hx
  by_cases hk : k < steps.length
  · rw [List.getElem?_append_left hk] at hx
    exact h k x hx
  · rw [List.getElem?_append_right (Nat.le_of_not_lt hk)] at hx
    have hk0 : k - steps.length = 0 := by
      by_contra hne
      have : 1 ≤ k - steps.length := Nat.one_le_iff_ne_zero.mpr hne
      rw [List.getElem?_eq_none (by simpa using this)] at hx
      exact Option.noConfusion hx
    rw [hk0] at hx
    simp only [List.getElem?_cons_zero, Option.some.injEq] at hx
    subst hx
    have : k = steps.length := by omega
    rw [hs, this]

theorem invariant_empty : LogicalOptimizeTracer.empty.invariant := by
  refine ⟨?_, ?_, ?_⟩
  · intro p hp; simp [LogicalOptimizeTracer.empty] at hp
  · intro r hr; simp [LogicalOptimizeTracer.empty] at hr
  · intro p hp; simp [LogicalOptimizeTracer.empty] at hp

theorem invariant_beginRule (tracer : LogicalOptimizeTracer) (h : tracer.invariant)
    (index : Int) (name : String) (before : PlanTrace) :
    (tracer.AppendRuleTracerBeforeRuleOptimize index name before).invariant
      ∧ (tracer.AppendRuleTracerBeforeRuleOptimize index name before).curRuleTracer.isSome
          = true := by
  obtain ⟨hsteps, hidx, -⟩ := h
  have hrules : (tracer.AppendRuleTracerBeforeRuleOptimize index name before).rules
      = tracer.rules ++ [buildLogicalRuleOptimizeTracerBeforeOptimize index name before] := rfl
  have hnew : (tracer.AppendRuleTracerBeforeRuleOptimize index name before).Steps
      = tracer.Steps ++ [tracer.rules.length] := rfl
  have hcur : (tracer.AppendRuleTracerBeforeRuleOptimize index name before).curRuleTracer
      = some tracer.rules.length := rfl
  refine ⟨⟨?_, ?_, ?_⟩, rfl⟩
  · intro p hp
    rw [hnew, List.mem_append, List.mem_singleton] at hp
    rw [hrules, List.length_append, List.length_singleton]
    rcases hp with hp | rfl
    · exact Nat.lt_succ_of_lt (hsteps p hp)
    · exact Nat.lt_succ_self _
  · intro r hr
    rw [hrules, List.mem_append, List.mem_singleton] at hr
    rcases hr with hr | rfl
    · exact hidx r hr
    · intro k s hs
      simp [buildLogicalRuleOptimizeTracerBeforeOptimize] at hs
  · intro p hp
    rw [hcur, Option.some.injEq] at hp
    rw [hrules, List.length_append, List.length_singleton, ← hp]
    exact Nat.lt_succ_self _

theorem invariant_recordStep (tracer : LogicalOptimizeTracer) (h : tracer.invariant)
    (hopen : tracer.curRuleTracer.isSome = true) (id : Int) (tp reason action : String) :
    ∃ t, tracer.AppendRuleTracerStepToCurrent id tp reason action = some t
      ∧ t.invariant ∧ t.curRuleTracer.isSome = true := by
  obtain ⟨hsteps, hidx, hcur⟩ := h
  obtain ⟨p, hp⟩ := Option.isSome_iff_exists.mp hopen
  have hlt : p < tracer.rules.length := hcur p hp
  have hget : tracer.rules[p]? = some tracer.rules[p] := List.getElem?_eq_getElem hlt
  refine ⟨{ tracer with
      rules := tracer.rules.set p
        { tracer.rules[p] with
          Steps := tracer.rules[p].Steps ++
            [{ ID := id, TP := tp, Reason := reason, Action := action,
               Index := (tracer.rules[p].Steps.length : Int) }] } },
    by simp only [LogicalOptimizeTracer.AppendRuleTracerStepToCurrent, hp, hget],
    ⟨?_, ?_, ?_⟩, hopen⟩
  · intro q hq
    simp only [List.length_set]
    exact hsteps q hq
  · intro r hr
    rcases List.mem_or_eq_of_mem_set hr with hr | rfl
    · exact hidx r hr
    · exact stepsIndexed_concat _ (hidx _ (List.getElem_mem hlt)) _ rfl
  · intro q hq
    simp only [List.length_set]
    exact hcur q hq

theorem invariant_recordFinal (tracer : LogicalOptimizeTracer) (h : tracer.invariant)
    (final : PlanTrace) :
    ∃ t, tracer.RecordFinalLogicalPlan final = some t
      ∧ t.invariant ∧ t.curRuleTracer = tracer.curRuleTracer := by
  obtain ⟨hsteps, hidx, hcur⟩ := h
  refine ⟨{ tracer with FinalLogicalPlan := toFlattenPlanTrace final,
                        Steps := tracer.Steps.filter (hasSteps tracer.rules) },
    ?_, ⟨?_, hidx, hcur⟩, rfl⟩
  · simp only [LogicalOptimizeTracer.RecordFinalLogicalPlan,
      LogicalOptimizeTracer.removeUselessStep]
    rw [removeUselessStep_loop tracer.rules tracer.Steps hsteps []]
    simp
  · intro p hp
    exact hsteps p (List.mem_filter.mp hp).1

theorem runCalls_invariant (calls : List LogicalCall) (tracer : LogicalOptimizeTracer)
    (h : tracer.invariant)
    (hopen : tracer.curRuleTracer.isSome = true ∨ beginPrecedesFirstStep calls = true) :
    ∃ t, runCalls tracer calls = some t ∧ t.invariant := by
  induction calls generalizing tracer with
  | nil => exact ⟨tracer, rfl, h⟩
  | cons call rest ih =>
    cases call with
    | beginRule index name before =>
      obtain ⟨hinv, hcur⟩ := invariant_beginRule tracer h index name before
      obtain ⟨t, hrun, ht⟩ := ih _ hinv (Or.inl hcur)
      exact ⟨t, by simp only [runCalls, runCall]; exact hrun, ht⟩
    | recordStep id tp reason action =>
      have hcur : tracer.curRuleTracer.isSome = true := by
        rcases hopen with hcur | hb
        · exact hcur
        · simp [beginPrecedesFirstStep] at hb
      obtain ⟨t1, hstep, hinv, hcur1⟩ := invariant_recordStep tracer h hcur id tp reason action
      obtain ⟨t, hrun, ht⟩ := ih _ hinv (Or.inl hcur1)
      exact ⟨t, by simp only [runCalls, runCall, hstep]; exact hrun, ht⟩
    | recordFinal final =>
      obtain ⟨t1, hfin, hinv, hcur1⟩ := invariant_recordFinal tracer h final
      have hopen1 : t1.curRuleTracer.isSome = true ∨ beginPrecedesFirstStep rest = true := by
        rcases hopen with hcur | hb
        · exact Or.inl (by rw [hcur1]; exact hcur)
        · exact Or.inr (by simpa [beginPrecedesFirstStep] using hb)
      obtain ⟨t, hrun, ht⟩ := ih _ hinv hopen1
      exact ⟨t, by simp only [runCalls, runCall, hfin]; exact hrun, ht⟩

/-- C18: every sequence of begin-rule, record-step and finalize calls on an
empty tracer in which a begin-rule call precedes the first record-step call
runs without panic, and in the state it reaches every rule entry of `Steps`
(indeed every rule object) has a step list whose k-th step has `Index = k`. -/
theorem C18_steps_indexed_in_reachable_states (calls : List LogicalCall)
    (h : beginPrecedesFirstStep calls = true) :
    ∃ t, runCalls LogicalOptimizeTracer.empty calls = some t
      ∧ (∀ r, r ∈ t.entries →
          ∀ (k : Nat) (s : LogicalRuleOptimizeTraceStep), r.Steps[k]? = some s → s.Index = (k : Int))
      ∧ (∀ r, r ∈ t.rules →
          ∀ (k : Nat) (s : LogicalRuleOptimizeTraceStep), r.Steps[k]? = some s → s.Index = (k : Int)) := by
  obtain ⟨t, hrun, -, hidx, -⟩ := runCalls_invariant calls _ invariant_empty (Or.inr h)
  refine ⟨t, hrun, ?_, hidx⟩
  intro r hr
  obtain ⟨p, -, hp⟩ := List.mem_filterMap.mp hr
  exact hidx r (List.getElem?_mem hp)

theorem C18_witness :
    beginPrecedesFirstStep exampleCalls = true
      ∧ (runCalls LogicalOptimizeTracer.empty exampleCalls).map
          (fun t => t.entries.map (fun r => (r.RuleName, r.Steps.map (fun s => s.Index))))
          = some [("R1", [0, 1])]
      ∧ (runCalls LogicalOptimizeTracer.empty exampleCalls).map
          (fun t => t.rules.map (fun r => (r.RuleName, r.Steps.map (fun s => s.Index))))
          = some [("R1", [0, 1]), ("R2", [0])]
      ∧ ∃ t, runCalls LogicalOptimizeTracer.empty exampleCalls = some t
        ∧ (∀ r, r ∈ t.entries →
            ∀ (k : Nat) (s : LogicalRuleOptimizeTraceStep),
              r.Steps[k]? = some s → s.Index = (k : Int))
        ∧ (∀ r, r ∈ t.rules →
            ∀ (k : Nat) (s : LogicalRuleOptimizeTraceStep),
              r.Steps[k]? = some s → s.Index = (k : Int)) :=
  ⟨rfl, rfl, rfl, C18_steps_indexed_in_reachable_states exampleCalls rfl⟩

/-! ## Plan names: lemmas and claim -/

theorem digitChar_value (d : Nat) (h : d < 10) :
    (Nat.digitChar d).toNat - 48 = d ∧ Nat.digitChar d ≠ '_' ∧ Nat.digitChar d ≠ '-' := by
  interval_cases d <;> decide

theorem digitsValue_concat (ds : List Char) (c : Char) :
    digitsValue (ds ++ [c]) = 10 * digitsValue ds + (c.toNat - 48) := by
  simp [digitsValue, List.foldl_append]

theorem toDigitsCore_spec (fuel n : Nat) (ds : List Char) (h : n < fuel) :
    ∃ pre, Nat.toDigitsCore 10 fuel n ds = pre ++ ds ∧ pre ≠ []
      ∧ (∀ c, c ∈ pre → c ≠ '_' ∧ c ≠ '-') ∧ digitsValue pre = n := by
  induction fuel generalizing n ds with
  | zero => omega
  | succ fuel ih =>
    have hd := digitChar_value (n % 10) (Nat.mod_lt n (by decide))
    by_cases hq : n / 10 = 0
    · refine ⟨[Nat.digitChar (n % 10)], ?_, by simp, ?_, ?_⟩
      · simp [Nat.toDigitsCore, hq]
      · intro c hc
        rw [List.mem_singleton] at hc
        subst hc
        exact hd.2
      · simp only [digitsValue, List.foldl_cons, List.foldl_nil, hd.1]
        omega
    · have hlt : n / 10 < fuel := by omega
      obtain ⟨pre, hpre, -, hchars, hval⟩ := ih (n / 10) (Nat.digitChar (n % 10) :: ds) hlt
      refine ⟨pre ++ [Nat.digitChar (n % 10)], ?_, by simp, ?_, ?_⟩
      · simp [Nat.toDigitsCore, hq, hpre]
      · intro c hc
        rw [List.mem_append, List.mem_singleton] at hc
        rcases hc with hc | rfl
        · exact hchars c hc
        · exact hd.2
      · rw [digitsValue_concat, hval, hd.1]
        omega

theorem formatNat_spec (n : Nat) :
    formatNat n ≠ [] ∧ (∀ c, c ∈ formatNat n → c ≠ '_' ∧ c ≠ '-')
      ∧ digitsValue (formatNat n) = n := by
  obtain ⟨pre, hpre, hne, hchars, hval⟩ := toDigitsCore_spec (n + 1) n [] (Nat.lt_succ_self n)
  have h : formatNat n = pre := by
    simp [formatNat, Nat.toDigits, hpre]
  rw [h]
  exact ⟨hne, hchars, hval⟩

theorem formatNat_injective (a b : Nat) (h : formatNat a = formatNat b) : a = b := by
  have ha := (formatNat_spec a).2.2
  rw [h, (formatNat_spec b).2.2] at ha
  exact ha.symm

theorem formatNat_head (n : Nat) (rest : List Char) : formatNat n ≠ '-' :: rest := by
  intro h
  have hmem : '-' ∈ formatNat n := by rw [h]; exact List.mem_cons_self _ _
  exact ((formatNat_spec n).2.1 _ hmem).2 rfl

theorem formatInt_no_underscore (i : Int) : '_' ∉ (formatInt i).data := by
  intro h
  unfold formatInt at h
  by_cases hi : i < 0
  · rw [if_pos hi] at h
    simp only [List.mem_cons] at h
    rcases h with h | h
    · exact absurd h (by decide)
    · exact ((formatNat_spec _).2.1 _ h).1 rfl
  · rw [if_neg hi] at h
    exact ((formatNat_spec _).2.1 _ h).1 rfl

theorem formatInt_injective (i j : Int) (h : formatInt i = formatInt j) : i = j := by
  unfold formatInt at h
  by_cases hi : i < 0 <;> by_cases hj : j < 0
  · rw [if_pos hi, if_pos hj] at h
    have := formatNat_injective _ _ (List.cons.inj (congrArg String.data h)).2
    omega
  · rw [if_pos hi, if_neg hj] at h
    exact absurd (congrArg String.data h).symm (formatNat_head _ _)
  · rw [if_neg hi, if_pos hj] at h
    exact absurd (congrArg String.data h) (formatNat_head _ _)
  · rw [if_neg hi, if_neg hj] at h
    have := formatNat_injective _ _ (congrArg String.data h)
    omega

theorem split_at_first (c : Char) (p q s t : List Char) (hp : c ∉ p) (hq : c ∉ q)
    (h : p ++ c :: s = q ++ c :: t) : p = q ∧ s = t := by
  induction p generalizing q with
  | nil =>
    cases q with
    | nil => exact ⟨rfl, (List.cons.inj h).2⟩
    | cons y q' =>
      have hy : c = y := (List.cons.inj h).1
      exact absurd (hy ▸ List.mem_cons_self _ _) hq
  | cons x p' ih =>
    cases q with
    | nil =>
      have hx : x = c := (List.cons.inj h).1
      exact absurd (hx ▸ List.mem_cons_self _ _) hp
    | cons y q' =>
      obtain ⟨hxy, hrest⟩ := List.cons.inj h
      obtain ⟨h1, h2⟩ := ih q' (fun hh => hp (List.mem_cons_of_mem _ hh))
        (fun hh => hq (List.mem_cons_of_mem _ hh)) hrest
      exact ⟨by rw [hxy, h1], h2⟩

theorem split_at_last (c : Char) (a b x y : List Char) (hx : c ∉ x) (hy : c ∉ y)
    (h : a ++ c :: x = b ++ c :: y) : a = b ∧ x = y := by
  have hrev : x.reverse ++ c :: a.reverse = y.reverse ++ c :: b.reverse := by
    have := congrArg List.reverse h
    simpa using this
  obtain ⟨h1, h2⟩ := split_at_first c _ _ _ _ (by simpa using hx) (by simpa using hy) hrev
  exact ⟨List.reverse_injective h2, List.reverse_injective h1⟩

theorem CodecPlanName_data (tp : String) (id : Int) :
    (CodecPlanName tp id).data = tp.data ++ '_' :: (formatInt id).data := by
  simp [CodecPlanName, String.data_append]

/-- C20: `CodecPlanName` is injective: the label is `tp`, then `_`, then the
decimal rendering of `id`, and two equal labels come from the same `tp` and
the same `id`, whatever underscores and digits `tp` contains (the rendering of
`id` has no underscore, so the last underscore of the label is the separator). -/
theorem C20_CodecPlanName_injective (tp1 tp2 : String) (id1 id2 : Int)
    (h : CodecPlanName tp1 id1 = CodecPlanName tp2 id2) : tp1 = tp2 ∧ id1 = id2 := by
  have hdata := congrArg String.data h
  rw [CodecPlanName_data, CodecPlanName_data] at hdata
  obtain ⟨h1, h2⟩ := split_at_last '_' _ _ _ _ (formatInt_no_underscore id1)
    (formatInt_no_underscore id2) hdata
  exact ⟨String.ext h1, formatInt_injective _ _ (String.ext h2)⟩

theorem C20_witness :
    (CodecPlanName "Index_1" 23 = "Index_1_23" ∧ CodecPlanName "T" (-5) = "T_-5")
      ∧ CodecPlanName "Index_1" 23 = CodecPlanName "Index_1" 23
      ∧ ("Index_1" = "Index_1" ∧ (23 : Int) = 23) :=
  ⟨⟨by decide, by decide⟩, rfl, C20_CodecPlanName_injective "Index_1" "Index_1" 23 23 rfl⟩

end Tracing
